import Mathlib

/-! Verification development for the computational core of EvolBioInf/mattools.

The development shallowly embeds the C++ sources (src/nj.cxx, src/mantel.cxx,
src/matrix.h) in Lean: the distance-matrix data model with its by-name
projection `sample2`, the neighbor-joining tree builder `nj`, the quartet
support estimator (`support_full`, `support_sample`, `quartet_all`), the
Newick serializer `to_newick`, the Mantel permutation test `mantel`, and the
matrix loop of the `mat nj` subcommand.  C++ `double` arithmetic is embedded
as exact rational arithmetic over `ℚ`; machine sizes (`size_t`) are `ℕ`. -/

/-- Row-major square value storage, as in `matrix::values` (matrix.h).  The
C++ class stores a flat `std::vector<double>` of length `size*size` and reads
`values[i*size+j]`; the embedding keeps one list per row. -/
abbrev Mat : Type := List (List ℚ)

/-- `matrix::entry(size_type i, size_type j)`: the cell at row `i`, column
`j`.  Out-of-range reads default to `0`; the C++ contract never performs
them. -/
def Mat.entry (M : Mat) (i j : ℕ) : ℚ := (M.getD i []).getD j 0

/-- The `matrix` class of matrix.h: an ordered name list plus row-major
values.  `size` is `names.size()`; the auxiliary coverage data is out of
scope for the claims and omitted. -/
@[ext]
structure matrix where
  names : List String
  values : Mat
deriving Repr, DecidableEq

/-- `matrix::get_size()`. -/
def matrix.get_size (m : matrix) : ℕ := m.names.length

/-- Index-based `matrix::entry`. -/
def matrix.entry (m : matrix) (i j : ℕ) : ℚ := m.values.entry i j

/-- The position of a name, as produced by `make_index_map` (matrix.h).  The
map sends each name of the list to its index; under the unique-name contract
asserted by the parser this is `List.indexOf`. -/
def matrix.name_index (m : matrix) (s : String) : ℕ := m.names.indexOf s

/-- Name-based `matrix::entry(const std::string &, const std::string &)`. -/
def matrix.entryN (m : matrix) (a b : String) : ℚ :=
  m.entry (m.name_index a) (m.name_index b)

/-- The binary tree nodes of nj.cxx (`tree_node`): a leaf carries an index
into the matrix name list; an internal node owns two children, two branch
lengths (`left_dist`, `right_dist`) and two support values (`left_support`,
`right_support`). -/
inductive NTree where
  | leaf (idx : ℕ)
  | node (l r : NTree) (ld rd ls rs : ℚ)
deriving Repr, DecidableEq

instance : Inhabited NTree := ⟨NTree.leaf 0⟩

/-- Whether a node is internal (`left_branch != nullptr`; for every node
built by `nj` the left and right branches are both null or both set). -/
def NTree.isNode : NTree → Bool
  | .leaf _ => false
  | .node .. => true

/-- The ternary root of nj.cxx (`tree_root`): two ordinary branches plus the
`extra` branch, each with a length and a support value. -/
structure NRoot where
  l : NTree
  r : NTree
  e : NTree
  ld : ℚ
  rd : ℚ
  ed : ℚ
  ls : ℚ
  rs : ℚ
  es : ℚ
deriving Repr, DecidableEq

/-- Divergence vector of one NJ iteration (nj.cxx:143-148): for every active
row `i < k`, `r[i] = (Σ_{j<k} M[i][j]) / (k-2)`.  The C++ sum runs over the
first `k` physical cells of row `i` of the working copy. -/
def rvec (k : ℕ) (M : Mat) : List ℚ :=
  (List.range k).map fun i =>
    (((List.range k).map fun j => M.entry i j).sum) / ((k : ℚ) - 2)

/-- The ordered pairs `(i, j)`, `i ≠ j`, in the scan order of the minimum
search of nj.cxx:153-164: `i` ascending, `j` ascending. -/
def scanPairs (k : ℕ) : List (ℕ × ℕ) :=
  (List.range k).flatMap fun i =>
    ((List.range k).filter fun j => decide (j ≠ i)).map fun j => (i, j)

/-- The Q-criterion value scanned at pair `p` (nj.cxx:157):
`M[i][j] - r[i] - r[j]`. -/
def qval (M : Mat) (r : List ℚ) (p : ℕ × ℕ) : ℚ :=
  M.entry p.1 p.2 - r.getD p.1 0 - r.getD p.2 0

/-- The minimum scan of nj.cxx:150-164: start from pair `(0,1)` with its
Q-value and replace the kept pair only on a strictly smaller value. -/
def scanMin (k : ℕ) (M : Mat) (r : List ℚ) : (ℕ × ℕ) × ℚ :=
  (scanPairs k).foldl
    (fun acc p => if qval M r p < acc.2 then (p, qval M r p) else acc)
    ((0, 1), qval M r (0, 1))

/-- The joined pair of one NJ iteration: the kept pair of the minimum scan,
swapped so that `i < j` (nj.cxx:166-169). -/
def selectPair (k : ℕ) (M : Mat) (r : List ℚ) : ℕ × ℕ :=
  let p := (scanMin k M r).1
  if p.2 < p.1 then (p.2, p.1) else p

/-- Distance of the freshly joined node to the node at slot `m`
(nj.cxx:183-190): `row_k[m] = (M[i][m] + M[j][m] - M[i][j]) / 2`. -/
def dnew (M : Mat) (i j m : ℕ) : ℚ :=
  (M.entry i m + M.entry j m - M.entry i j) / 2

/-- One in-place matrix compaction step of nj.cxx:180-213, expressed as the
resulting active `(k-1) × (k-1)` window.  Slot `i` holds the new node's row
(`row_k`, with `row_k[j] = row_k[k-1]`), slot `j` holds the row moved down
from slot `k-1`, the diagonal cells `(i,i)` and `(j,j)` are zeroed, and the
columns `i` and `j` are restored from the rows `i` and `j`. -/
def stepMat (k i j : ℕ) (M : Mat) : Mat :=
  let σ : ℕ → ℕ := fun s => if s = j then k - 1 else s
  (List.range (k - 1)).map fun s =>
    (List.range (k - 1)).map fun t =>
      if s = i ∧ t = i then 0
      else if s = j ∧ t = j then 0
      else if s = i then dnew M i j (σ t)
      else if t = i then dnew M i j (σ s)
      else if t = j then M.entry (k - 1) s
      else M.entry (σ s) t

/-- The node created by one join (nj.cxx:171-174). -/
def joinNode (nodes : List NTree) (M : Mat) (r : List ℚ) (i j : ℕ) : NTree :=
  NTree.node (nodes.getD i default) (nodes.getD j default)
    ((M.entry i j + r.getD i 0 - r.getD j 0) / 2)
    ((M.entry i j - r.getD i 0 + r.getD j 0) / 2)
    0 0

/-- The active-node bookkeeping of one join (nj.cxx:176-178 and the final
`n--`): slot `i` receives the new node, slot `j` receives the node from the
last active slot `k-1`, and the active window shrinks to `k-1`. -/
def stepNodes (k i j : ℕ) (nodes : List NTree) (M : Mat) (r : List ℚ) :
    List NTree :=
  let ns1 := nodes.set i (joinNode nodes M r i j)
  (ns1.set j (ns1.getD (k - 1) default)).take (k - 1)

/-- The `while (n > 3)` loop of nj.cxx:142-214.  The loop runs exactly
`n₀ - 3` times, so the fuel argument makes it structurally recursive. -/
def njLoop : ℕ → ℕ → List NTree → Mat → List NTree × Mat
  | 0, _, nodes, M => (nodes, M)
  | fuel + 1, k, nodes, M =>
    let r := rvec k M
    let p := selectPair k M r
    njLoop fuel (k - 1) (stepNodes k p.1 p.2 nodes M r) (stepMat k p.1 p.2 M)

/-- `nj(const matrix &m)` (nj.cxx:122-228): initialize one leaf per matrix
row, run the join loop down to three active nodes, and build the ternary
root from the three survivors with the branch lengths of nj.cxx:217-222. -/
def nj (m : matrix) : NRoot :=
  let n := m.get_size
  let res := njLoop (n - 3) n ((List.range n).map NTree.leaf) m.values
  let nodes := res.1
  let M := res.2
  { l := nodes.getD 0 default
    r := nodes.getD 1 default
    e := nodes.getD 2 default
    ld := (M.entry 0 1 + M.entry 0 2 - M.entry 1 2) / 2
    rd := (M.entry 0 1 + M.entry 1 2 - M.entry 0 2) / 2
    ed := (M.entry 0 2 + M.entry 1 2 - M.entry 0 1) / 2
    ls := 0, rs := 0, es := 0 }

/-- Number of leaves of a subtree. -/
def NTree.leafCount : NTree → ℕ
  | .leaf _ => 1
  | .node l r _ _ _ _ => l.leafCount + r.leafCount

/-- Number of internal (pairwise-join) nodes of a subtree. -/
def NTree.joinCount : NTree → ℕ
  | .leaf _ => 0
  | .node l r _ _ _ _ => l.joinCount + r.joinCount + 1

/-- The leaf indices of a subtree, in traversal order. -/
def NTree.leafIdxs : NTree → List ℕ
  | .leaf i => [i]
  | .node l r _ _ _ _ => l.leafIdxs ++ r.leafIdxs

/-- The worked scenario of spec §8: names A,B,C,D with `d(A,B)=2` and all
other off-diagonal distances `4`. -/
def scenario : matrix :=
  { names := ["A", "B", "C", "D"]
    values := [[0, 2, 4, 4], [2, 0, 4, 4], [4, 4, 0, 4], [4, 4, 4, 0]] }

/-- Left-pad the decimal numeral of `n` with zeros to `len` characters. -/
def natPad (len n : ℕ) : String :=
  let s := toString n
  String.mk (List.replicate (len - s.length) '0') ++ s

/-- Round to the nearest integer, halves away from zero rounding up; stands
in for the correctly-rounded decimal conversion that `snprintf` and
`std::to_string` perform on `double` values. -/
def roundHalfUp (q : ℚ) : ℤ := ⌊q + 1 / 2⌋

/-- The truncation performed by a C++ `(int)` cast on a `double`. -/
def cppInt (q : ℚ) : ℤ := if q < 0 then -⌊-q⌋ else ⌊q⌋

/-- `std::to_string((int)(support * 100))` as used by `to_newick`
(nj.cxx:243 etc.). -/
def supPct (s : ℚ) : String := toString (cppInt (s * 100))

/-- `std::to_string(double)`: fixed-point notation with six fractional
digits (the `%f` default), as used for `left_dist` in nj.cxx:245. -/
def fmtFixed6 (q : ℚ) : String :=
  let sgn := if q < 0 then "-" else ""
  let s := (roundHalfUp (|q| * 1000000)).toNat
  sgn ++ toString (s / 1000000) ++ "." ++ natPad 6 (s % 1000000)

/-- The least `k` with `10 ^ k ≥ b` (for `b > 1`; else `0`). -/
def ceilLog10 (b : ℚ) : ℕ :=
  if b ≤ 1 then 0 else Nat.log 10 (⌈b⌉.toNat - 1) + 1

/-- `⌊log₁₀ a⌋` for positive rational `a`. -/
def floorLog10 (a : ℚ) : ℤ :=
  if 1 ≤ a then (Nat.log 10 ⌊a⌋.toNat : ℤ) else -(ceilLog10 (1 / a) : ℤ)

/-- `snprintf(buf, _, "%1.4e", q)`: scientific notation with five
significant digits and a sign-and-two-digit exponent, as used for
`right_dist` and `extra_dist` in nj.cxx:257, 272, 283. -/
def fmtSci (q : ℚ) : String :=
  if q = 0 then "0.0000e+00"
  else
    let sgn := if q < 0 then "-" else ""
    let e0 := floorLog10 |q|
    let m0 := (roundHalfUp (|q| * (10 : ℚ) ^ (4 - e0))).toNat
    let m := if m0 ≥ 100000 then m0 / 10 else m0
    let e := if m0 ≥ 100000 then e0 + 1 else e0
    let ms := toString m
    let es := if e < 0 then "-" ++ natPad 2 (-e).toNat else "+" ++ natPad 2 e.toNat
    sgn ++ ms.take 1 ++ "." ++ ms.drop 1 ++ "e" ++ es

/-- The `pre` callback of `to_newick` (nj.cxx:235-239). -/
def newickPre (t : NTree) : String := if t.isNode then "(" else ""

/-- The `process` callback of `to_newick` (nj.cxx:240-249): a leaf prints
its name; an internal node prints the support of its left branch (only if
the left child is itself internal), then `:`, the left branch length via
`std::to_string`, and a comma. -/
def newickProcess (names : List String) : NTree → String
  | .leaf i => names.getD i ""
  | .node l _ ld _ ls _ =>
    (if l.isNode then supPct ls else "") ++ ":" ++ fmtFixed6 ld ++ ","

/-- The `post` callback of `to_newick` (nj.cxx:250-259): nothing for a leaf;
an internal node prints the support of its right branch (only if the right
child is internal), then `:`, the right branch length via `%1.4e`, and a
closing parenthesis. -/
def newickPost : NTree → String
  | .leaf _ => ""
  | .node _ r _ rd _ rs =>
    (if r.isNode then supPct rs else "") ++ ":" ++ fmtSci rd ++ ")"

/-- `tree_node::traverse(pre, process, post)` (nj.cxx:69-88) specialized to
the string-building callbacks of `to_newick`: `pre`, left subtree,
`process`, right subtree, `post`. -/
def traverse3 (names : List String) : NTree → String
  | .leaf i =>
    newickPre (.leaf i) ++ newickProcess names (.leaf i) ++ newickPost (.leaf i)
  | .node l r ld rd ls rs =>
    newickPre (.node l r ld rd ls rs) ++ traverse3 names l
      ++ newickProcess names (.node l r ld rd ls rs) ++ traverse3 names r
      ++ newickPost (.node l r ld rd ls rs)

/-- `to_newick(const tree &, const matrix &)` (nj.cxx:230-289): open paren,
left subtree followed by the root's `process` fragment, right subtree
followed by the root-right fragment (support only if the right child is
internal, then `:`, `%1.4e` length, comma), extra subtree followed by the
extra fragment, and the closing `);`. -/
def to_newick (t : NRoot) (m : matrix) : String :=
  "(" ++ traverse3 m.names t.l
    ++ ((if t.l.isNode then supPct t.ls else "") ++ ":" ++ fmtFixed6 t.ld ++ ",")
    ++ traverse3 m.names t.r
    ++ ((if t.r.isNode then supPct t.rs else "") ++ ":" ++ fmtSci t.rd ++ ",")
    ++ traverse3 m.names t.e
    ++ ((if t.e.isNode then supPct t.es else "") ++ ":" ++ fmtSci t.ed)
    ++ ");"

/-- Direct structural rendering of a subtree: the same string `traverse3`
produces, written as one recursion.  Left branch lengths appear in
`std::to_string` fixed notation, right branch lengths in `%1.4e`. -/
def newickRender (names : List String) : NTree → String
  | .leaf i => names.getD i ""
  | .node l r ld rd ls rs =>
    "(" ++ newickRender names l ++ (if l.isNode then supPct ls else "")
      ++ ":" ++ fmtFixed6 ld ++ ","
      ++ newickRender names r ++ (if r.isNode then supPct rs else "")
      ++ ":" ++ fmtSci rd ++ ")"

/-- Modelled from the spec: subtree rendering in which every branch length
is formatted as a 5-significant-digit scientific numeral (`%1.4e` style), as
spec §6 asserts of the serializer. -/
def newickRenderSci (names : List String) : NTree → String
  | .leaf i => names.getD i ""
  | .node l r ld rd ls rs =>
    "(" ++ newickRenderSci names l ++ (if l.isNode then supPct ls else "")
      ++ ":" ++ fmtSci ld ++ ","
      ++ newickRenderSci names r ++ (if r.isNode then supPct rs else "")
      ++ ":" ++ fmtSci rd ++ ")"

/-- Modelled from the spec: the whole-tree serialization spec §6 describes,
with every branch length (left, right, root and extra alike) in `%1.4e`
scientific notation. -/
def to_newick_sci (t : NRoot) (m : matrix) : String :=
  "(" ++ newickRenderSci m.names t.l
    ++ ((if t.l.isNode then supPct t.ls else "") ++ ":" ++ fmtSci t.ld ++ ",")
    ++ newickRenderSci m.names t.r
    ++ ((if t.r.isNode then supPct t.rs else "") ++ ":" ++ fmtSci t.rd ++ ",")
    ++ newickRenderSci m.names t.e
    ++ ((if t.e.isNode then supPct t.es else "") ++ ":" ++ fmtSci t.ed)
    ++ ");"

/-- The quartet color classes of nj.cxx:291: `SET_D = 0`, `SET_A = 1`,
`SET_B = 2`, `SET_C = 3`. -/
def SET_D : ℕ := 0

/-- Color class A. -/
def SET_A : ℕ := 1

/-- Color class B. -/
def SET_B : ℕ := 2

/-- Color class C. -/
def SET_C : ℕ := 3

/-- `colorize(tree_node *, std::vector<uint8_t> &, uint8_t)` (nj.cxx:332-341):
set `buffer[idx] = color` for every leaf index of the subtree, visiting the
leaves in traversal order. -/
def colorize : NTree → List ℕ → ℕ → List ℕ
  | .leaf i, buf, c => buf.set i c
  | .node l r _ _ _ _, buf, c => colorize r (colorize l buf c) c

/-- The buffer `quartet_left` builds for an internal node with children
`l`, `r` whose left child `l` is itself internal (nj.cxx:306-317): start
all-`SET_D`, color `l`'s left subtree `SET_A`, `l`'s right subtree `SET_B`,
and `r` `SET_C`.  (The same buffer shape serves the root's extra branch,
nj.cxx:359-368, with `l` the extra branch and `r` the root's left branch.) -/
def quartet_left_buf (n : ℕ) (l r : NTree) : List ℕ :=
  match l with
  | .leaf _ => []
  | .node ll lr _ _ _ _ =>
    colorize r (colorize lr (colorize ll (List.replicate n SET_D) SET_A) SET_B) SET_C

/-- The buffer `quartet_right` builds for an internal node with children
`l`, `r` whose right child `r` is internal (nj.cxx:319-330). -/
def quartet_right_buf (n : ℕ) (l r : NTree) : List ℕ :=
  match r with
  | .leaf _ => []
  | .node rl rr _ _ _ _ =>
    colorize l (colorize rr (colorize rl (List.replicate n SET_D) SET_A) SET_B) SET_C

/-- The indices of color class `c` in scan order: the rows `A < size` with
`buffer[A] == c`, as enumerated by the nested loops of `support_full`
(nj.cxx:461-472). -/
def classIdxs (n : ℕ) (buffer : List ℕ) (c : ℕ) : List ℕ :=
  (List.range n).filter fun i => buffer.getD i SET_D == c

/-- All quartets `(a ∈ A, b ∈ B, c ∈ C, d ∈ D)` in the enumeration order of
the four nested loops of `support_full` (nj.cxx:461-483). -/
def quartetList (n : ℕ) (buffer : List ℕ) : List (ℕ × ℕ × ℕ × ℕ) :=
  (classIdxs n buffer SET_A).flatMap fun a =>
    (classIdxs n buffer SET_B).flatMap fun b =>
      (classIdxs n buffer SET_C).flatMap fun c =>
        (classIdxs n buffer SET_D).map fun d => (a, b, c, d)

/-- The four-point test of nj.cxx:476-482: a quartet is counted as
non-supporting iff `D_ac + D_bd < D_ab + D_cd` or `D_ad + D_bc < D_ab + D_cd`
(plain strict comparison). -/
def nonSupporting (dist : matrix) (q : ℕ × ℕ × ℕ × ℕ) : Bool :=
  let dabcd := dist.entry q.1 q.2.1 + dist.entry q.2.2.1 q.2.2.2
  decide (dist.entry q.1 q.2.2.1 + dist.entry q.2.1 q.2.2.2 < dabcd) ||
    decide (dist.entry q.1 q.2.2.2 + dist.entry q.2.1 q.2.2.1 < dabcd)

/-- `quartet_counter` of `support_full` (nj.cxx:459, 474): the number of
enumerated quartets. -/
def quartet_counter (dist : matrix) (buffer : List ℕ) : ℕ :=
  (quartetList dist.get_size buffer).length

/-- `non_supporting_counter` of `support_full` (nj.cxx:458, 481). -/
def non_supporting_counter (dist : matrix) (buffer : List ℕ) : ℕ :=
  ((quartetList dist.get_size buffer).filter (nonSupporting dist)).length

/-- `support_full(const matrix &, const std::vector<uint8_t> &)`
(nj.cxx:454-489): `1 - non_supporting_counter / quartet_counter`. -/
def support_full (dist : matrix) (buffer : List ℕ) : ℚ :=
  1 - (non_supporting_counter dist buffer : ℚ) / (quartet_counter dist buffer : ℚ)

/-- `close_enough` of mat-format.cxx:32-34 at the default
`PRECISION = 0.05`: `a*(1-ε) ≤ b ∧ b ≤ a*(1+ε)`. -/
def close_enough (a b : ℚ) : Bool :=
  decide (a * (1 - 1 / 20) ≤ b) && decide (b ≤ a * (1 + 1 / 20))

/-- Modelled from the spec: the four-point test spec §4.3 describes, where a
strictly smaller alternative pairing within the validation tolerance ε
(`close_enough`, default 0.05) still counts as supporting. -/
def nonSupportingEps (dist : matrix) (q : ℕ × ℕ × ℕ × ℕ) : Bool :=
  let dabcd := dist.entry q.1 q.2.1 + dist.entry q.2.2.1 q.2.2.2
  let alt1 := dist.entry q.1 q.2.2.1 + dist.entry q.2.1 q.2.2.2
  let alt2 := dist.entry q.1 q.2.2.2 + dist.entry q.2.1 q.2.2.1
  (decide (alt1 < dabcd) && !close_enough dabcd alt1) ||
    (decide (alt2 < dabcd) && !close_enough dabcd alt2)

/-- Modelled from the spec: the support value of spec §4.3, the fraction of
quartets that do not contradict the edge beyond the ε tolerance. -/
def support_full_eps (dist : matrix) (buffer : List ℕ) : ℚ :=
  1 - (((quartetList dist.get_size buffer).filter (nonSupportingEps dist)).length : ℚ) /
    (quartet_counter dist buffer : ℚ)

/-- The per-node work of `quartet_all` (nj.cxx:343-353): each pool node gets
`quartet_left` and `quartet_right` applied, which set `left_support` /
`right_support` when the respective child is internal and leave them
untouched (at their initial `0.0`) otherwise.  The pool holds every join
node of the tree, so the iteration is rendered as a structural recursion. -/
def annotateNode (sfn : matrix → List ℕ → ℚ) (dist : matrix) : NTree → NTree
  | .leaf i => .leaf i
  | .node l r ld rd ls rs =>
    .node (annotateNode sfn dist l) (annotateNode sfn dist r) ld rd
      (if l.isNode then sfn dist (quartet_left_buf dist.get_size l r) else ls)
      (if r.isNode then sfn dist (quartet_right_buf dist.get_size l r) else rs)

/-- `quartet_all(tree &, const matrix &)` (nj.cxx:343-369): annotate every
join node, then the root's left and right branches, then the root's extra
branch (whose buffer pairs the extra branch's subtrees against the root's
left branch). -/
def quartet_all (sfn : matrix → List ℕ → ℚ) (t : NRoot) (dist : matrix) : NRoot :=
  let n := dist.get_size
  { l := annotateNode sfn dist t.l
    r := annotateNode sfn dist t.r
    e := annotateNode sfn dist t.e
    ld := t.ld, rd := t.rd, ed := t.ed
    ls := if t.l.isNode then sfn dist (quartet_left_buf n t.l t.r) else t.ls
    rs := if t.r.isNode then sfn dist (quartet_right_buf n t.l t.r) else t.rs
    es := if t.e.isNode then sfn dist (quartet_left_buf n t.e t.l) else t.es }

/-- The support-function invocations `quartet_all` performs on a tree: the
buffers passed to `support_fn` by `quartet_left` / `quartet_right` on each
join node and by the three root cases, exactly when the respective guard
lets the call through. -/
def nodeInvocations (n : ℕ) : NTree → List (List ℕ)
  | .leaf _ => []
  | .node l r _ _ _ _ =>
    (if l.isNode then [quartet_left_buf n l r] else []) ++
      (if r.isNode then [quartet_right_buf n l r] else []) ++
      nodeInvocations n l ++ nodeInvocations n r

/-- All buffers on which `quartet_all` invokes the support function
(nj.cxx:343-369): every join node of the three root subtrees plus the three
root branches. -/
def njInvocations (n : ℕ) (t : NRoot) : List (List ℕ) :=
  nodeInvocations n t.l ++ nodeInvocations n t.r ++ nodeInvocations n t.e ++
    (if t.l.isNode then [quartet_left_buf n t.l t.r] else []) ++
    (if t.r.isNode then [quartet_right_buf n t.l t.r] else []) ++
    (if t.e.isNode then [quartet_left_buf n t.e t.l] else [])

/-- Write one cell of a row-major value store. -/
def Mat.setEntry (M : Mat) (i j : ℕ) (v : ℚ) : Mat :=
  M.set i ((M.getD i []).set j v)

/-- `sample2(const matrix &, ForwardIt, ForwardIt)` (matrix.h:798-817):
build a zero matrix over the given ordered name list, then copy every cell
by name lookup — `ret.entry(name1, name2) = self.entry(name1, name2)` for
each ordered pair of names from the list. -/
def sample2 (self : matrix) (ns : List String) : matrix :=
  let zero := List.replicate ns.length (List.replicate ns.length (0 : ℚ))
  { names := ns
    values := ns.foldl
      (fun acc name1 =>
        ns.foldl
          (fun acc2 name2 =>
            acc2.setEntry (ns.indexOf name1) (ns.indexOf name2)
              (self.entryN name1 name2))
          acc)
      zero }

/-- `common_names` (matrix.h:1097-1110): sort both name lists and return
their intersection; under the unique-name contract this is the sorted list
of the first list's names that also occur in the second. -/
def common_names (self other : List String) : List String :=
  (self.mergeSort fun a b => decide (a ≤ b)).filter fun s => other.contains s

/-- Computable stand-in for the exact square root on `ℚ`: exact on
perfect-square rationals (the only values at which the theorems below
inspect it), a floor-style approximation elsewhere. -/
def sqrtQ (q : ℚ) : ℚ := (Nat.sqrt q.num.toNat : ℚ) / (Nat.sqrt q.den : ℚ)

/-- `lower_triangle_avg` (mantel.cxx:40-53): mean of the strict lower
triangle. -/
def lower_triangle_avg (self : matrix) : ℚ :=
  let size := self.get_size
  (((List.range size).flatMap fun i => (List.range i).map fun j => self.entry i j).sum) /
    (((size * (size - 1) : ℕ) : ℚ) / 2)

/-- `lower_triangle_stddvt` (mantel.cxx:65-77): sample standard deviation of
the strict lower triangle around `avg`. -/
def lower_triangle_stddvt (self : matrix) (avg : ℚ) : ℚ :=
  let size := self.get_size
  sqrtQ ((((List.range size).flatMap fun i =>
      (List.range i).map fun j => (self.entry i j - avg) ^ 2).sum) /
    (((size * (size - 1) : ℕ) : ℚ) / 2 - 1))

/-- `normalize` (mantel.cxx:79-91; the Lean name avoids the Mathlib clash): z-score every cell of the square by the
lower-triangle mean and standard deviation. -/
def normalizeM (self : matrix) : matrix :=
  let avg := lower_triangle_avg self
  let sd := lower_triangle_stddvt self avg
  { self with values := self.values.map fun row => row.map fun v => (v - avg) / sd }

/-- `rmsd` (mantel.cxx:112-131): root of the mean squared difference over
all unordered name pairs of `self`, entries looked up by name in both
matrices. -/
def rmsd (self other : matrix) : ℚ :=
  let names := self.names
  let n := names.length
  sqrtQ (((((List.range n).flatMap fun i =>
      ((List.range n).filter fun j => decide (i < j)).map fun j =>
        (self.entryN (names.getD i "") (names.getD j "") -
            other.entryN (names.getD i "") (names.getD j "")) ^ 2).sum)) /
    (((n * (n - 1) : ℕ) : ℚ) / 2))

/-- The trial count of the Mantel permutation loop (mantel.cxx:159). -/
def mantelRuns : ℕ := 100000

/-- `mantel(const matrix &, const matrix &, bool)` (mantel.cxx:133-181):
project both matrices onto the sorted common names, optionally normalize,
take `orig = rmsd` of the pair, then for each of the 100000 trials permute
the row/column labels of the second projected matrix and recompute the
statistic; the returned p-value is the fraction of trial statistics at
least as large as `orig` (`lower_bound` on the sorted trial list).  The
engine (`ProperlySeededRandomEngine`, freshly seeded from
`std::random_device`, no seed parameter) and `std::shuffle` are modelled by
the oracle `perms`, giving the label permutation each trial uses. -/
def mantel (perms : ℕ → List ℕ) (self other : matrix) (donormalize : Bool) : ℚ :=
  let new_names := common_names self.names other.names
  let size := new_names.length
  let new_self0 := sample2 self new_names
  let new_other0 := sample2 other new_names
  let new_self := if donormalize then normalizeM new_self0 else new_self0
  let new_other := if donormalize then normalizeM new_other0 else new_other0
  let orig := rmsd new_self new_other
  let count : ℚ := ((size * (size - 1) : ℕ) : ℚ) / 2
  let montecarlo := (List.range mantelRuns).map fun run =>
    let ind := perms run
    sqrtQ ((((List.range size).flatMap fun i =>
        ((List.range size).filter fun j => decide (i < j)).map fun j =>
          (new_self.entry i j -
              new_other.entry (ind.getD i 0) (ind.getD j 0)) ^ 2).sum) / count)
  let sorted := montecarlo.mergeSort fun a b => decide (a ≤ b)
  let it := (sorted.takeWhile fun z => decide (z < orig)).length
  ((sorted.length - it : ℕ) : ℚ) / (sorted.length : ℚ)

/-- The mutable globals of nj.cxx:33-36: `sample_size` and `seed`. -/
structure NjGlobals where
  sample_size : ℕ
  seed : ℕ
deriving Repr, DecidableEq

/-- One step of the minimal standard linear congruential generator; models
`std::default_random_engine` (implementation-defined in C++; libstdc++ uses
`minstd_rand0`). -/
def lcgNext (x : ℕ) : ℕ := 16807 * x % 2147483647

/-- The sampling loop of `support_sample` (nj.cxx:431-436): draw one index
per class (`uniform_int_distribution`, modelled as modulo reduction of one
engine draw) and insert the quartet into the set until `sample_size`
distinct quartets are collected.  The C++ `while` loop has no fuel; the
explicit fuel makes the recursion structural and is benign for every run
that terminates. -/
def sampleQuartets : ℕ → ℕ → List ℕ → List ℕ → List ℕ → List ℕ → ℕ →
    List (ℕ × ℕ × ℕ × ℕ) → List (ℕ × ℕ × ℕ × ℕ)
  | 0, _, _, _, _, _, _, acc => acc
  | fuel + 1, x, iA, iB, iC, iD, target, acc =>
    if target ≤ acc.length then acc
    else
      let x1 := lcgNext x
      let x2 := lcgNext x1
      let x3 := lcgNext x2
      let x4 := lcgNext x3
      let q := (iA.getD (x1 % iA.length) 0, iB.getD (x2 % iB.length) 0,
                iC.getD (x3 % iC.length) 0, iD.getD (x4 % iD.length) 0)
      sampleQuartets fuel x4 iA iB iC iD target
        (if q ∈ acc then acc else acc ++ [q])

/-- `support_sample(const matrix &, const std::vector<uint8_t> &)`
(nj.cxx:379-452).  If fewer quartets exist than `sample_size`, fall back to
`support_full`.  Otherwise, when the global `seed` is zero draw a fresh
`std::random_device` value (the `entropy` argument) and store it in the
global, seed the engine from the (possibly updated) global seed, collect
`sample_size` distinct quartets, and return the supporting fraction among
them together with the updated globals. -/
def support_sample (fuel : ℕ) (g : NjGlobals) (entropy : ℕ) (dist : matrix)
    (buffer : List ℕ) : ℚ × NjGlobals :=
  let n := dist.get_size
  let iA := classIdxs n buffer SET_A
  let iB := classIdxs n buffer SET_B
  let iC := classIdxs n buffer SET_C
  let iD := classIdxs n buffer SET_D
  let quartet_number := iA.length * iB.length * iC.length * iD.length
  if quartet_number < g.sample_size then (support_full dist buffer, g)
  else
    let seed := if g.seed = 0 then entropy else g.seed
    let qs := sampleQuartets fuel seed iA iB iC iD g.sample_size []
    ((1 : ℚ) - ((qs.filter (nonSupporting dist)).length : ℚ) / (g.sample_size : ℚ),
      { g with seed := seed })

/-- The per-matrix body of the `mat nj` loop (nj.cxx:550-560) with the
default option state (`support = true`, `support_fn = &support_full`):
build the tree, annotate supports, serialize. -/
def mat_nj_process (m : matrix) : String :=
  to_newick (quartet_all support_full (nj m) m) m

/-- The matrix loop of `mat_nj` (nj.cxx:546-562): each parsed matrix with
fewer than four names aborts the run via `errx(1, ...)`; otherwise every
matrix is processed and the subcommand returns 0.  The `Except` value
carries either the fatal diagnostic or the emitted Newick lines. -/
def mat_nj : List matrix → Except String (List String)
  | [] => .ok []
  | m :: rest =>
    if m.get_size < 4 then .error "expected at least four species"
    else
      match mat_nj rest with
      | .ok outs => .ok (mat_nj_process m :: outs)
      | .error e => .error e

/-- Process exit code of a `mat nj` run: `errx` terminates with status 1,
otherwise `mat_nj` returns 0. -/
def exitCode : Except String (List String) → ℕ
  | .ok _ => 0
  | .error _ => 1

/-! ### Helper lemmas -/

/-- Unfold `List.getD` to `getElem` under a length bound. -/
theorem getD_lt {α : Type} (l : List α) (d : α) {n : ℕ} (h : n < l.length) :
    l.getD n d = l[n] := List.getD_eq_getElem l d h

/-! ### Claim C3: branch lengths of joins, of the ternary root, and the
worked scenario -/

/-- The initial divergence vector of the scenario. -/
def scenR : List ℚ := rvec 4 scenario.values

/-- The initial leaf list of the scenario. -/
def scenNodes : List NTree := (List.range 4).map NTree.leaf

/-- Simp set that evaluates the NJ pipeline on concrete inputs. -/
theorem scen_rvec : scenR = [5, 5, 6, 6] := by
  norm_num [scenR, rvec, scenario, Mat.entry, List.range_succ]

/-- The scan of the scenario keeps the pair `(0, 1)`. -/
theorem scen_pair : selectPair 4 scenario.values scenR = (0, 1) := by
  norm_num [selectPair, scanMin, scanPairs, qval, scenR, rvec, scenario,
    Mat.entry, List.range_succ]

/-- The scenario tree, computed. -/
theorem scen_nj :
    nj scenario =
      { l := NTree.node (NTree.leaf 0) (NTree.leaf 1) 1 1 0 0
        r := NTree.leaf 3, e := NTree.leaf 2
        ld := 1, rd := 2, ed := 2, ls := 0, rs := 0, es := 0 } := by
  norm_num [nj, matrix.get_size, scenario, njLoop, selectPair, scanMin,
    scanPairs, qval, rvec, Mat.entry, stepNodes, stepMat, joinNode, dnew,
    List.range_succ]

/-- Claim C3: every join assigns branch lengths
`left = (M[i,j] + r[i] - r[j])/2`, `right = (M[i,j] - r[i] + r[j])/2`; the
ternary root built from the last three active nodes gets the three-point
branch lengths; and on the worked scenario the divergences are `[5,5,6,6]`,
the scan-order tie-break joins `(A,B)` at `Q = -8` (tied with `(C,D)` which
also has `Q = -8`), the AB join gets lengths `1` and `1`, and the root
branches to the AB clade, D and C get lengths `1`, `2`, `2`. -/
theorem nj_branch_lengths :
    (∀ (k i j : ℕ) (nodes : List NTree) (M : Mat) (r : List ℚ),
      i < j → j < k → nodes.length = k →
      (stepNodes k i j nodes M r).getD i default =
        NTree.node (nodes.getD i default) (nodes.getD j default)
          ((M.entry i j + r.getD i 0 - r.getD j 0) / 2)
          ((M.entry i j - r.getD i 0 + r.getD j 0) / 2) 0 0) ∧
    (∀ m : matrix,
      (nj m).ld =
        ((njLoop (m.get_size - 3) m.get_size ((List.range m.get_size).map NTree.leaf)
            m.values).2.entry 0 1 +
          (njLoop (m.get_size - 3) m.get_size ((List.range m.get_size).map NTree.leaf)
            m.values).2.entry 0 2 -
          (njLoop (m.get_size - 3) m.get_size ((List.range m.get_size).map NTree.leaf)
            m.values).2.entry 1 2) / 2 ∧
      (nj m).rd =
        ((njLoop (m.get_size - 3) m.get_size ((List.range m.get_size).map NTree.leaf)
            m.values).2.entry 0 1 +
          (njLoop (m.get_size - 3) m.get_size ((List.range m.get_size).map NTree.leaf)
            m.values).2.entry 1 2 -
          (njLoop (m.get_size - 3) m.get_size ((List.range m.get_size).map NTree.leaf)
            m.values).2.entry 0 2) / 2 ∧
      (nj m).ed =
        ((njLoop (m.get_size - 3) m.get_size ((List.range m.get_size).map NTree.leaf)
            m.values).2.entry 0 2 +
          (njLoop (m.get_size - 3) m.get_size ((List.range m.get_size).map NTree.leaf)
            m.values).2.entry 1 2 -
          (njLoop (m.get_size - 3) m.get_size ((List.range m.get_size).map NTree.leaf)
            m.values).2.entry 0 1) / 2) ∧
    scenR = [5, 5, 6, 6] ∧
    selectPair 4 scenario.values scenR = (0, 1) ∧
    qval scenario.values scenR (0, 1) = -8 ∧
    qval scenario.values scenR (2, 3) = -8 ∧
    (nj scenario).l = NTree.node (NTree.leaf 0) (NTree.leaf 1) 1 1 0 0 ∧
    (nj scenario).r = NTree.leaf 3 ∧
    (nj scenario).e = NTree.leaf 2 ∧
    (nj scenario).ld = 1 ∧ (nj scenario).rd = 2 ∧ (nj scenario).ed = 2 := by
  refine ⟨?_, fun m => ⟨rfl, rfl, rfl⟩, scen_rvec, scen_pair, ?_, ?_,
    by rw [scen_nj], by rw [scen_nj], by rw [scen_nj], by rw [scen_nj],
    by rw [scen_nj], by rw [scen_nj]⟩
  · intro k i j nodes M r hij hjk hlen
    have hik : i < k - 1 := by omega
    have htk : (stepNodes k i j nodes M r).length = k - 1 := by
      simp [stepNodes, hlen]
    have hikk : i < (stepNodes k i j nodes M r).length := by omega
    rw [getD_lt _ _ hikk]
    unfold stepNodes
    simp only
    rw [List.getElem_take]
    rw [List.getElem_set_ne (by omega)]
    rw [List.getElem_set_self (by simp [hlen]; omega)]
    simp [joinNode]
  · rw [scen_rvec]
    norm_num [qval, scenario, Mat.entry]
  · rw [scen_rvec]
    norm_num [qval, scenario, Mat.entry]

/-- Witness for `nj_branch_lengths`: the general join formula applied to the
first join of the scenario. -/
theorem nj_branch_lengths_witness :
    (stepNodes 4 0 1 scenNodes scenario.values scenR).getD 0 default =
      NTree.node (scenNodes.getD 0 default) (scenNodes.getD 1 default)
        ((Mat.entry scenario.values 0 1 + scenR.getD 0 0 - scenR.getD 1 0) / 2)
        ((Mat.entry scenario.values 0 1 - scenR.getD 0 0 + scenR.getD 1 0) / 2) 0 0 :=
  nj_branch_lengths.1 4 0 1 scenNodes scenario.values scenR (by decide) (by decide)
    (by decide)


/-! ### Claim C4: the support fraction and the (absent) tolerance -/

/-- A 4-name matrix on which the strict four-point test and the ε-tolerant
one of the spec disagree: `D_ab + D_cd = 4` while `D_ac + D_bd = 39/10`,
smaller by 2.5% — inside the 5% tolerance. -/
def matC4 : matrix :=
  { names := ["w", "x", "y", "z"]
    values := [[0, 2, 2, 2], [2, 0, 2, 19/10], [2, 2, 0, 2], [2, 19/10, 2, 0]] }

/-- The quartet buffer putting leaf 0 in class A, 1 in B, 2 in C, 3 in D. -/
def bufC4 : List ℕ := [SET_A, SET_B, SET_C, SET_D]

theorem length_filter_add_length_filter_not {α : Type} (p : α → Bool)
    (l : List α) :
    (l.filter p).length + (l.filter fun a => !p a).length = l.length := by
  induction l with
  | nil => rfl
  | cons a l ih =>
    by_cases h : p a <;> simp [List.filter_cons, h, ← ih] <;> omega

/-- Counterexample to claim C4: on `matC4` with buffer `bufC4` the code's
support value (`support_full`, plain strict comparison) is `0`, while the
claimed ε-tolerant fraction is `1` — the tolerance of the claim is not
applied by the code. -/
theorem support_eps_counterexample :
    support_full matC4 bufC4 ≠ support_full_eps matC4 bufC4 := by
  have hql : quartetList matC4.get_size bufC4 = [(0, 1, 2, 3)] := by decide
  have hns : nonSupporting matC4 (0, 1, 2, 3) = true := by
    norm_num [nonSupporting, matC4, matrix.entry, Mat.entry]
  have hne : nonSupportingEps matC4 (0, 1, 2, 3) = false := by
    norm_num [nonSupportingEps, close_enough, matC4, matrix.entry, Mat.entry]
  have h1 : support_full matC4 bufC4 = 0 := by
    rw [support_full, non_supporting_counter, quartet_counter, hql]
    simp [List.filter_cons, hns]
  have h2 : support_full_eps matC4 bufC4 = 1 := by
    rw [support_full_eps, quartet_counter, hql]
    simp [List.filter_cons, hne]
  rw [h1, h2]
  norm_num

/-- Claim C4, amended: for every edge whose quartet count is nonzero, the
support value equals the fraction of quartets that support the edge, where a
quartet supports unless an alternative pairing is strictly smaller than
`D_ab + D_cd` under plain comparison — no ε tolerance is applied. -/
theorem support_full_fraction (dist : matrix) (buffer : List ℕ)
    (h : quartet_counter dist buffer ≠ 0) :
    support_full dist buffer =
      (((quartetList dist.get_size buffer).filter fun q =>
          !nonSupporting dist q).length : ℚ) /
        (quartet_counter dist buffer : ℚ) := by
  have hq : ((quartet_counter dist buffer : ℚ)) ≠ 0 := by
    exact_mod_cast h
  have hsum := length_filter_add_length_filter_not (nonSupporting dist)
    (quartetList dist.get_size buffer)
  unfold support_full non_supporting_counter at *
  unfold quartet_counter at *
  field_simp
  have : ((quartetList dist.get_size buffer).length : ℚ) =
      (((quartetList dist.get_size buffer).filter (nonSupporting dist)).length : ℚ) +
      (((quartetList dist.get_size buffer).filter fun q =>
          !nonSupporting dist q).length : ℚ) := by
    exact_mod_cast hsum.symm
  rw [this]
  ring

/-- Witness for `support_full_fraction` at the concrete edge of `matC4`. -/
theorem support_full_fraction_witness :
    quartet_counter matC4 bufC4 ≠ 0 ∧
      support_full matC4 bufC4 =
        (((quartetList matC4.get_size bufC4).filter fun q =>
            !nonSupporting matC4 q).length : ℚ) /
          (quartet_counter matC4 bufC4 : ℚ) :=
  ⟨by decide, support_full_fraction matC4 bufC4 (by decide)⟩

/-! ### Claim C6: Newick output formats -/

theorem fmtFixed6_one : fmtFixed6 1 = "1.000000" := by
  have h : roundHalfUp (|(1 : ℚ)| * 1000000) = 1000000 := by
    norm_num [roundHalfUp]
  rw [fmtFixed6, h]
  norm_num
  rfl

theorem fmtSci_one : fmtSci 1 = "1.0000e+00" := by
  have he : floorLog10 (1 : ℚ) = 0 := by
    norm_num [floorLog10, Nat.log_one_right]
  norm_num [fmtSci, he, roundHalfUp]
  rfl

theorem fmtSci_two : fmtSci 2 = "2.0000e+00" := by
  have h2 : Nat.log 10 2 = 0 := by rw [Nat.log_eq_zero_iff]; omega
  have he : floorLog10 (2 : ℚ) = 0 := by
    norm_num [floorLog10, h2]
  norm_num [fmtSci, he, roundHalfUp]
  rfl

theorem supPct_zero : supPct 0 = "0" := by
  have h : cppInt ((0 : ℚ) * 100) = 0 := by
    norm_num [cppInt]
  rw [supPct, h]
  rfl

/-- `traverse3` with the three `to_newick` callbacks is the direct
structural rendering. -/
theorem traverse3_eq_render (names : List String) (t : NTree) :
    traverse3 names t = newickRender names t := by
  induction t with
  | leaf i => simp [traverse3, newickRender, newickPre, newickProcess,
      newickPost, NTree.isNode]
  | node l r ld rd ls rs ihl ihr =>
    simp [traverse3, newickRender, newickPre, newickProcess, newickPost,
      NTree.isNode, ihl, ihr, String.append_assoc]

/-- The serialized scenario tree, with its exact byte-for-byte output. -/
theorem scen_newick :
    to_newick (nj scenario) scenario =
      "((A:1.000000,B:1.0000e+00)0:1.000000,D:2.0000e+00,C:2.0000e+00);" := by
  rw [scen_nj]
  rw [to_newick]
  simp only [traverse3, newickPre, newickProcess, newickPost, NTree.isNode,
    scenario, List.getD, fmtFixed6_one, fmtSci_one, fmtSci_two, supPct_zero]
  rfl

/-- The spec-claimed all-scientific serialization of the scenario tree. -/
theorem scen_newick_sci :
    to_newick_sci (nj scenario) scenario =
      "((A:1.0000e+00,B:1.0000e+00)0:1.0000e+00,D:2.0000e+00,C:2.0000e+00);" := by
  rw [scen_nj]
  rw [to_newick_sci]
  simp only [newickRenderSci, NTree.isNode, scenario, List.getD, fmtSci_one,
    fmtSci_two, supPct_zero]
  rfl

/-- Counterexample to claim C6: the serializer does not format every branch
length in `%1.4e` style — on the scenario tree its output differs from the
all-scientific form the claim describes (left branch lengths appear as
`1.000000`, not `1.0000e+00`). -/
theorem to_newick_sci_counterexample :
    to_newick (nj scenario) scenario ≠ to_newick_sci (nj scenario) scenario := by
  rw [scen_newick, scen_newick_sci]
  decide

/-- Claim C6, amended: `to_newick` renders every right branch length, the
root's right branch length and the extra branch length in `%1.4e`
scientific notation, but every left branch length (the root's included) in
`std::to_string` fixed six-decimal notation; on the scenario tree the output
is exactly `((A:1.000000,B:1.0000e+00)0:1.000000,D:2.0000e+00,C:2.0000e+00);`. -/
theorem to_newick_formats :
    (∀ (t : NRoot) (m : matrix),
      to_newick t m =
        "(" ++ newickRender m.names t.l
          ++ ((if t.l.isNode then supPct t.ls else "") ++ ":" ++ fmtFixed6 t.ld ++ ",")
          ++ newickRender m.names t.r
          ++ ((if t.r.isNode then supPct t.rs else "") ++ ":" ++ fmtSci t.rd ++ ",")
          ++ newickRender m.names t.e
          ++ ((if t.e.isNode then supPct t.es else "") ++ ":" ++ fmtSci t.ed)
          ++ ");") ∧
    to_newick (nj scenario) scenario =
      "((A:1.000000,B:1.0000e+00)0:1.000000,D:2.0000e+00,C:2.0000e+00);" := by
  refine ⟨fun t m => ?_, scen_newick⟩
  rw [to_newick, traverse3_eq_render, traverse3_eq_render, traverse3_eq_render]

/-! ### Claim C7: exit codes of `mat nj` -/

/-- A two-name matrix, rejected by `mat nj`. -/
def matSmall : matrix := { names := ["a", "b"], values := [[0, 1], [1, 0]] }

/-- Claim C7: the `mat nj` matrix loop terminates with exit code 1 and the
diagnostic `expected at least four species` when any parsed matrix has fewer
than four names, and returns exit code 0 when every matrix is processed. -/
theorem mat_nj_exit_codes (mats : List matrix) :
    ((∃ m ∈ mats, m.get_size < 4) →
      mat_nj mats = .error "expected at least four species" ∧
        exitCode (mat_nj mats) = 1) ∧
    ((∀ m ∈ mats, 4 ≤ m.get_size) →
      ∃ outs, mat_nj mats = .ok outs ∧ exitCode (mat_nj mats) = 0) := by
  induction mats with
  | nil =>
    refine ⟨?_, fun _ => ⟨[], rfl, rfl⟩⟩
    rintro ⟨m, hm, -⟩
    cases hm
  | cons m rest ih =>
    constructor
    · rintro ⟨x, hx, hlt⟩
      rcases List.mem_cons.mp hx with rfl | hx'
      · simp [mat_nj, if_pos hlt, exitCode]
      · by_cases hm : m.get_size < 4
        · simp [mat_nj, if_pos hm, exitCode]
        · have herr := ih.1 ⟨x, hx', hlt⟩
          simp [mat_nj, if_neg hm, herr.1, exitCode]
    · intro hall
      have hm : ¬ m.get_size < 4 := by
        have := hall m (List.mem_cons_self m rest)
        omega
      obtain ⟨outs, ho, -⟩ := ih.2 fun x hx => hall x (List.mem_cons_of_mem _ hx)
      exact ⟨mat_nj_process m :: outs, by simp [mat_nj, if_neg hm, ho],
        by simp [mat_nj, if_neg hm, ho, exitCode]⟩

/-- Witness for `mat_nj_exit_codes`: a run containing a two-name matrix
exits 1 with the diagnostic; a run on the scenario matrix alone exits 0. -/
theorem mat_nj_exit_codes_witness :
    (mat_nj [matSmall] = .error "expected at least four species" ∧
      exitCode (mat_nj [matSmall]) = 1) ∧
    ∃ outs, mat_nj [scenario] = .ok outs ∧ exitCode (mat_nj [scenario]) = 0 :=
  ⟨(mat_nj_exit_codes [matSmall]).1 ⟨matSmall, List.mem_singleton.mpr rfl, by decide⟩,
    (mat_nj_exit_codes [scenario]).2 fun x hx => by
      rw [List.mem_singleton.mp hx]; decide⟩

/-! ### Claim C10: projection copies by name -/

theorem getD_set_ne' {α : Type} (l : List α) (i j : ℕ) (x d : α) (h : i ≠ j) :
    (l.set i x).getD j d = l.getD j d := by
  rw [List.getD_eq_getElem?_getD, List.getD_eq_getElem?_getD,
    List.getElem?_set_ne h]

theorem getD_set_self' {α : Type} (l : List α) (i : ℕ) (x d : α)
    (h : i < l.length) :
    (l.set i x).getD i d = x := by
  rw [List.getD_eq_getElem _ _ (by simpa using h)]
  exact List.getElem_set_self _

/-- Rows other than `i` are untouched by `setEntry` at `i`. -/
theorem setEntry_row_ne (M : Mat) (i j p : ℕ) (v : ℚ) (h : p ≠ i) :
    (M.setEntry i j v).getD p [] = M.getD p [] :=
  getD_set_ne' _ _ _ _ _ (fun he => h he.symm)

/-- Shape is preserved by `setEntry`. -/
theorem setEntry_length (M : Mat) (i j : ℕ) (v : ℚ) :
    (M.setEntry i j v).length = M.length := by
  simp [Mat.setEntry]

/-- The double name loop of `sample2`, abstracted over the outer name list
still to process. -/
def sample2Fold (self : matrix) (ns : List String) (l : List String) (M : Mat) :
    Mat :=
  l.foldl
    (fun acc name1 =>
      ns.foldl
        (fun acc2 name2 =>
          acc2.setEntry (List.indexOf name1 ns) (List.indexOf name2 ns)
            (self.entryN name1 name2))
        acc)
    M

/-- The inner name loop of `sample2` over one row. -/
def sample2Inner (self : matrix) (ns : List String) (name1 : String)
    (l : List String) (M : Mat) : Mat :=
  l.foldl
    (fun acc2 name2 =>
      acc2.setEntry (List.indexOf name1 ns) (List.indexOf name2 ns)
        (self.entryN name1 name2))
    M

theorem sample2_def_fold (self : matrix) (ns : List String) :
    sample2 self ns =
      { names := ns
        values := sample2Fold self ns ns
          (List.replicate ns.length (List.replicate ns.length 0)) } := rfl

theorem sample2Inner_length (self : matrix) (ns : List String) (name1 : String) :
    ∀ (l : List String) (M : Mat), (sample2Inner self ns name1 l M).length = M.length := by
  intro l
  induction l with
  | nil => intro M; rfl
  | cons h t ih =>
    intro M
    rw [sample2Inner, List.foldl_cons, ← sample2Inner, ih, setEntry_length]

theorem sample2Inner_row_ne (self : matrix) (ns : List String) (name1 : String)
    (p : ℕ) (hp : p ≠ List.indexOf name1 ns) :
    ∀ (l : List String) (M : Mat),
      (sample2Inner self ns name1 l M).getD p [] = M.getD p [] := by
  intro l
  induction l with
  | nil => intro M; rfl
  | cons h t ih =>
    intro M
    rw [sample2Inner, List.foldl_cons, ← sample2Inner, ih, setEntry_row_ne _ _ _ _ _ hp]

theorem sample2Inner_col_ne (self : matrix) (ns : List String) (name1 : String)
    (q : ℕ) :
    ∀ (l : List String) (M : Mat), (∀ x ∈ l, List.indexOf x ns ≠ q) →
      Mat.entry (sample2Inner self ns name1 l M) (List.indexOf name1 ns) q =
        Mat.entry M (List.indexOf name1 ns) q := by
  intro l
  induction l with
  | nil => intro M _; rfl
  | cons h t ih =>
    intro M hl
    rw [sample2Inner, List.foldl_cons, ← sample2Inner,
      ih _ (fun x hx => hl x (List.mem_cons_of_mem _ hx))]
    unfold Mat.entry Mat.setEntry
    by_cases hpi : List.indexOf name1 ns < M.length
    · rw [getD_set_self' _ _ _ _ hpi,
        getD_set_ne' _ _ _ _ _ (hl h (List.mem_cons_self _ _))]
    · rw [List.set_eq_of_length_le (by omega)]

theorem sample2Inner_entry (self : matrix) (ns : List String) (name1 : String) :
    ∀ (l : List String) (M : Mat) (x : String), x ∈ l → l.Nodup →
      (∀ y ∈ l, y ∈ ns) →
      List.indexOf name1 ns < M.length →
      (M.getD (List.indexOf name1 ns) []).length = ns.length →
      Mat.entry (sample2Inner self ns name1 l M) (List.indexOf name1 ns)
          (List.indexOf x ns) = self.entryN name1 x := by
  intro l
  induction l with
  | nil => intro M x hx; cases hx
  | cons h t ih =>
    intro M x hx hl hmem hiM hrow
    rcases List.mem_cons.mp hx with rfl | hx'
    · rw [sample2Inner, List.foldl_cons, ← sample2Inner]
      rw [sample2Inner_col_ne]
      · unfold Mat.entry Mat.setEntry
        rw [getD_set_self' _ _ _ _ hiM]
        rw [getD_set_self' _ _ _ _ (by rw [hrow]; exact List.indexOf_lt_length.mpr (hmem x (List.mem_cons_self _ _)))]
      · intro y hy hxy
        have hyx : y = x := by
          have hm1 : y ∈ ns := hmem y (List.mem_cons_of_mem _ hy)
          have hm2 : x ∈ ns := hmem x (List.mem_cons_self _ _)
          exact (List.indexOf_inj hm1 hm2).mp hxy
        exact (List.nodup_cons.mp hl).1 (hyx ▸ hy)
    · rw [sample2Inner, List.foldl_cons, ← sample2Inner]
      refine ih _ x hx' (List.nodup_cons.mp hl).2
        (fun y hy => hmem y (List.mem_cons_of_mem _ hy)) ?_ ?_
      · rw [setEntry_length]; exact hiM
      · unfold Mat.setEntry
        rw [getD_set_self' _ _ _ _ hiM, List.length_set]
        exact hrow

theorem setEntry_rowlen (M : Mat) (i j p : ℕ) (v : ℚ) :
    ((M.setEntry i j v).getD p []).length = (M.getD p []).length := by
  by_cases hpi : p = i
  · subst hpi
    by_cases hp : p < M.length
    · unfold Mat.setEntry
      rw [getD_set_self' _ _ _ _ hp, List.length_set]
    · unfold Mat.setEntry
      rw [List.set_eq_of_length_le (by omega)]
  · rw [setEntry_row_ne _ _ _ _ _ hpi]

theorem sample2Inner_rowlen (self : matrix) (ns : List String) (name1 : String) :
    ∀ (l : List String) (M : Mat) (p : ℕ),
      ((sample2Inner self ns name1 l M).getD p []).length = (M.getD p []).length := by
  intro l
  induction l with
  | nil => intro M p; rfl
  | cons h t ih =>
    intro M p
    rw [sample2Inner, List.foldl_cons, ← sample2Inner, ih, setEntry_rowlen]

theorem sample2Fold_length (self : matrix) (ns : List String) :
    ∀ (l : List String) (M : Mat), (sample2Fold self ns l M).length = M.length := by
  intro l
  induction l with
  | nil => intro M; rfl
  | cons h t ih =>
    intro M
    rw [sample2Fold, List.foldl_cons, ← sample2Fold, ih, ← sample2Inner,
      sample2Inner_length]

theorem sample2Fold_rowlen (self : matrix) (ns : List String) :
    ∀ (l : List String) (M : Mat) (p : ℕ),
      ((sample2Fold self ns l M).getD p []).length = (M.getD p []).length := by
  intro l
  induction l with
  | nil => intro M p; rfl
  | cons h t ih =>
    intro M p
    rw [sample2Fold, List.foldl_cons, ← sample2Fold, ih, ← sample2Inner,
      sample2Inner_rowlen]

theorem sample2Fold_row_ne (self : matrix) (ns : List String) (p : ℕ) :
    ∀ (l : List String) (M : Mat), (∀ y ∈ l, p ≠ List.indexOf y ns) →
      (sample2Fold self ns l M).getD p [] = M.getD p [] := by
  intro l
  induction l with
  | nil => intro M _; rfl
  | cons h t ih =>
    intro M hl
    rw [sample2Fold, List.foldl_cons, ← sample2Fold,
      ih _ (fun y hy => hl y (List.mem_cons_of_mem _ hy)), ← sample2Inner,
      sample2Inner_row_ne _ _ _ _ (hl h (List.mem_cons_self _ _))]

theorem sample2Fold_entry (self : matrix) (ns : List String) (hnd : ns.Nodup)
    (b : String) (hb : b ∈ ns) :
    ∀ (l : List String) (M : Mat) (a : String), a ∈ l → l.Nodup →
      (∀ y ∈ l, y ∈ ns) → M.length = ns.length →
      (∀ p, p < M.length → (M.getD p []).length = ns.length) →
      Mat.entry (sample2Fold self ns l M) (List.indexOf a ns) (List.indexOf b ns) =
        self.entryN a b := by
  intro l
  induction l with
  | nil => intro M a ha; cases ha
  | cons h t ih =>
    intro M a ha hl hmem hlen hrow
    have hiM : List.indexOf a ns < M.length := by
      rw [hlen]
      exact List.indexOf_lt_length.mpr (hmem a ha)
    rcases List.mem_cons.mp ha with rfl | ha'
    · rw [sample2Fold, List.foldl_cons, ← sample2Fold, ← sample2Inner]
      have huntouched :
          (sample2Fold self ns t (sample2Inner self ns a ns M)).getD
              (List.indexOf a ns) [] =
            (sample2Inner self ns a ns M).getD (List.indexOf a ns) [] := by
        refine sample2Fold_row_ne self ns _ t _ fun y hy heq => ?_
        have hya : a = y :=
          (List.indexOf_inj (hmem a ha) (hmem y (List.mem_cons_of_mem _ hy))).mp heq
        exact (List.nodup_cons.mp hl).1 (hya ▸ hy)
      rw [Mat.entry, huntouched, ← Mat.entry]
      exact sample2Inner_entry self ns a ns M b hb hnd (fun y hy => hy) hiM
        (hrow _ hiM)
    · rw [sample2Fold, List.foldl_cons, ← sample2Fold, ← sample2Inner]
      refine ih _ a ha' (List.nodup_cons.mp hl).2
        (fun y hy => hmem y (List.mem_cons_of_mem _ hy)) ?_ ?_
      · rw [sample2Inner_length]; exact hlen
      · intro p hp
        rw [sample2Inner_rowlen]
        exact hrow p (by rwa [sample2Inner_length] at hp)

/-- Entry-level characterization of `sample2`: the projected matrix holds
`self.entryN a b` at the position pair of `a` and `b`. -/
theorem sample2_grid (self : matrix) (ns : List String) (hnd : ns.Nodup) :
    ∀ a ∈ ns, ∀ b ∈ ns,
      Mat.entry (sample2 self ns).values (List.indexOf a ns) (List.indexOf b ns) =
        self.entryN a b := by
  intro a ha b hb
  rw [sample2_def_fold]
  refine sample2Fold_entry self ns hnd b hb ns _ a ha hnd (fun y hy => hy)
    (by simp) ?_
  intro p hp
  rw [List.length_replicate] at hp
  rw [List.getD_eq_getElem _ _ (by simpa using hp), List.getElem_replicate,
    List.length_replicate]

/-- Projecting a well-formed matrix onto its own full name list is the
identity (the no-op projection of spec §8). -/
theorem sample2_self_identity (self : matrix) (hnd : self.names.Nodup)
    (hlen : self.values.length = self.get_size)
    (hrows : ∀ row ∈ self.values, row.length = self.get_size) :
    sample2 self self.names = self := by
  have hgrid := sample2_grid self self.names hnd
  have hn : self.get_size = self.names.length := rfl
  refine matrix.ext rfl ?_
  have hL : (sample2 self self.names).values.length = self.values.length := by
    rw [sample2_def_fold]
    simp [sample2Fold_length]
    omega
  refine List.ext_getElem hL fun p hp1 hp2 => ?_
  have hpn : p < self.names.length := by
    rw [sample2_def_fold] at hp1
    simp [sample2Fold_length] at hp1
    exact hp1
  have hrowL : ((sample2 self self.names).values.getD p []).length =
      (self.values[p]).length := by
    rw [sample2_def_fold]
    have := sample2Fold_rowlen self self.names self.names
      (List.replicate self.names.length (List.replicate self.names.length 0)) p
    simp only [this]
    rw [List.getD_eq_getElem _ _ (by simpa using hpn)]
    rw [List.getElem_replicate, List.length_replicate]
    rw [hrows _ (List.getElem_mem hp2), hn]
  refine List.ext_getElem ?_ fun q hq1 hq2 => ?_
  · rw [← List.getD_eq_getElem _ ([] : List ℚ) hp1]
    exact hrowL
  have hqn : q < self.names.length := by
    rw [hrows _ (List.getElem_mem hp2), hn] at hq2
    exact hq2
  have ha : self.names[p] ∈ self.names := List.getElem_mem hpn
  have hb : self.names[q] ∈ self.names := List.getElem_mem hqn
  have h := hgrid _ ha _ hb
  rw [List.indexOf_getElem hnd p hpn, List.indexOf_getElem hnd q hqn] at h
  have hnself : self.entryN self.names[p] self.names[q] =
      Mat.entry self.values p q := by
    unfold matrix.entryN matrix.entry matrix.name_index
    rw [List.indexOf_getElem hnd p hpn, List.indexOf_getElem hnd q hqn]
  rw [hnself] at h
  have hlhs : ((sample2 self self.names).values[p][q]) =
      Mat.entry (sample2 self self.names).values p q := by
    unfold Mat.entry
    rw [List.getD_eq_getElem _ ([] : List ℚ) hp1,
      List.getD_eq_getElem _ (0 : ℚ) hq1]
  have hrhs : (self.values[p][q]) = Mat.entry self.values p q := by
    unfold Mat.entry
    rw [List.getD_eq_getElem _ ([] : List ℚ) hp2,
      List.getD_eq_getElem _ (0 : ℚ) hq2]
  rw [hlhs, hrhs, h]

/-- Claim C10: `sample2` copies entries by name — for a duplicate-free list
of names drawn from the matrix, the projection carries exactly those names
in order and `result.entry(a,b) = original.entry(a,b)` for all listed names;
consequently projecting a well-formed matrix onto its own full name list
yields the identical matrix. -/
theorem sample2_projection (self : matrix) :
    (∀ ns : List String, ns.Nodup → (∀ x ∈ ns, x ∈ self.names) →
      (sample2 self ns).names = ns ∧
        ∀ a ∈ ns, ∀ b ∈ ns, (sample2 self ns).entryN a b = self.entryN a b) ∧
    (self.names.Nodup → self.values.length = self.get_size →
      (∀ row ∈ self.values, row.length = self.get_size) →
      sample2 self self.names = self) := by
  constructor
  · intro ns hnd hsub
    refine ⟨rfl, fun a ha b hb => ?_⟩
    have h := sample2_grid self ns hnd a ha b hb
    unfold matrix.entryN matrix.entry matrix.name_index at *
    rw [sample2_def_fold] at *
    exact h
  · exact sample2_self_identity self

/-- Witness for `sample2_projection`: projecting the scenario matrix onto
its own name list reproduces it, and entries project by name. -/
theorem sample2_projection_witness :
    ((sample2 scenario ["A", "B", "C", "D"]).names = ["A", "B", "C", "D"] ∧
      ∀ a ∈ ["A", "B", "C", "D"], ∀ b ∈ ["A", "B", "C", "D"],
        (sample2 scenario ["A", "B", "C", "D"]).entryN a b = scenario.entryN a b) ∧
    sample2 scenario scenario.names = scenario :=
  ⟨(sample2_projection scenario).1 ["A", "B", "C", "D"] (by decide)
      (by decide),
    (sample2_projection scenario).2 (by decide) (by decide)
      (by decide)⟩

/-! ### Claim C9: the Mantel p-value -/

theorem takeWhile_length_le {α : Type} (p : α → Bool) (l : List α) :
    (l.takeWhile p).length ≤ l.length := by
  induction l with
  | nil => simp
  | cons a t ih =>
    rw [List.takeWhile_cons]
    by_cases h : p a <;> (simp [h]; try omega)

theorem sorted_takeWhile_countP (o : ℚ) :
    ∀ l : List ℚ, l.Pairwise (fun a b => a ≤ b) →
      (l.takeWhile fun z => decide (z < o)).length =
        l.countP fun z => decide (z < o) := by
  intro l
  induction l with
  | nil => intro _; rfl
  | cons a t ih =>
    intro hp
    rw [List.takeWhile_cons, List.countP_cons]
    by_cases h : a < o
    · simp [h, ih (List.Pairwise.sublist (List.sublist_cons_self a t) hp)]
    · have hz : t.countP (fun z => decide (z < o)) = 0 := by
        rw [List.countP_eq_zero]
        intro z hz
        have : a ≤ z := (List.pairwise_cons.mp hp).1 z hz
        simp only [decide_eq_true_eq]
        intro hlt
        exact h (lt_of_le_of_lt this hlt)
      simp [h, hz]

/-- The p-value arithmetic of mantel.cxx:177-180: sorting, `lower_bound` and
the final division compute the fraction of trial statistics at least as
large as `orig`. -/
theorem pvalue_eq_countP (mc : List ℚ) (o : ℚ) :
    (((mc.mergeSort fun a b => decide (a ≤ b)).length -
        ((mc.mergeSort fun a b => decide (a ≤ b)).takeWhile fun z =>
          decide (z < o)).length : ℕ) : ℚ) /
      ((mc.mergeSort fun a b => decide (a ≤ b)).length : ℚ) =
      ((mc.countP fun z => decide (o ≤ z)) : ℚ) / (mc.length : ℚ) := by
  have hsorted : (mc.mergeSort fun a b => decide (a ≤ b)).Pairwise
      (fun a b => a ≤ b) := by
    have h := @List.sorted_mergeSort ℚ (fun a b : ℚ => decide (a ≤ b))
      (fun a b c hab hbc => by
        simp only [decide_eq_true_eq] at *
        exact le_trans hab hbc)
      (fun a b => by
        simp only [Bool.or_eq_true, decide_eq_true_eq]
        exact le_total a b)
      mc
    exact h.imp (by simp)
  have hperm := List.mergeSort_perm mc (fun a b => decide (a ≤ b))
  have hlen : (mc.mergeSort fun a b => decide (a ≤ b)).length = mc.length :=
    hperm.length_eq
  rw [sorted_takeWhile_countP o _ hsorted, hperm.countP_eq, hlen]
  have hsplit : mc.countP (fun z => decide (z < o)) +
      mc.countP (fun z => !decide (z < o)) = mc.length := by
    rw [List.countP_eq_length_filter, List.countP_eq_length_filter]
    exact length_filter_add_length_filter_not _ mc
  have hcongr : mc.countP (fun z => !decide (z < o)) =
      mc.countP (fun z => decide (o ≤ z)) := by
    refine List.countP_congr fun x _ => ?_
    simp [not_lt]
  have hle : mc.countP (fun z => decide (z < o)) ≤ mc.length :=
    List.countP_le_length _
  rw [← hcongr, ← hsplit]
  congr 1
  push_cast [Nat.add_sub_cancel_left]
  ring

/-- Modelled from the spec: the Mantel permutation test of spec §4.4 — the
same projections, statistic and 100000-trial null distribution, with the
p-value written directly as the fraction of null values at least as extreme
as the observed statistic. -/
def mantel_spec (perms : ℕ → List ℕ) (self other : matrix)
    (donormalize : Bool) : ℚ :=
  let new_names := common_names self.names other.names
  let size := new_names.length
  let new_self0 := sample2 self new_names
  let new_other0 := sample2 other new_names
  let new_self := if donormalize then normalizeM new_self0 else new_self0
  let new_other := if donormalize then normalizeM new_other0 else new_other0
  let orig := rmsd new_self new_other
  let count : ℚ := ((size * (size - 1) : ℕ) : ℚ) / 2
  let montecarlo := (List.range mantelRuns).map fun run =>
    let ind := perms run
    sqrtQ ((((List.range size).flatMap fun i =>
        ((List.range size).filter fun j => decide (i < j)).map fun j =>
          (new_self.entry i j -
              new_other.entry (ind.getD i 0) (ind.getD j 0)) ^ 2).sum) / count)
  ((montecarlo.countP fun z => decide (orig ≤ z)) : ℚ) / (montecarlo.length : ℚ)

theorem countP_div_length_bounds (mc : List ℚ) (p : ℚ → Bool) :
    0 ≤ (mc.countP p : ℚ) / (mc.length : ℚ) ∧
      (mc.countP p : ℚ) / (mc.length : ℚ) ≤ 1 := by
  constructor
  · apply div_nonneg
    · positivity
    · positivity
  · rcases Nat.eq_zero_or_pos mc.length with h0 | hpos
    · simp [h0]
    · rw [div_le_one (by exact_mod_cast hpos)]
      exact_mod_cast List.countP_le_length p

/-- Claim C9: the Mantel test projects both matrices onto their common
names, builds a 100000-trial null distribution by permuting the labels of
the second projected matrix, returns the fraction of null values at least
as extreme as the observed statistic, and this p-value always lies in
`[0, 1]`. -/
theorem mantel_eq_spec (perms : ℕ → List ℕ) (self other : matrix) (dn : Bool) :
    mantel perms self other dn = mantel_spec perms self other dn := by
  rw [mantel, mantel_spec]
  exact pvalue_eq_countP _ _

/-- Claim C9 main statement. -/
theorem mantel_pvalue_range (perms : ℕ → List ℕ) (self other : matrix)
    (dn : Bool) :
    0 ≤ mantel perms self other dn ∧ mantel perms self other dn ≤ 1 ∧
      mantel perms self other dn = mantel_spec perms self other dn := by
  have heq := mantel_eq_spec perms self other dn
  refine ⟨?_, ?_, heq⟩
  · rw [heq]
    unfold mantel_spec
    exact (countP_div_length_bounds _ _).1
  · rw [heq]
    unfold mantel_spec
    exact (countP_div_length_bounds _ _).2

/-! ### Claim C8: randomness, seeds and reproducibility -/

/-- Claim C8, amended (nj side): quartet-sampling randomness flows through
the global `seed` of nj.cxx:36 — once that global is nonzero, the sampled
support is independent of the per-call entropy, so two calls on the same
inputs agree. -/
theorem support_sample_seed_deterministic (fuel : ℕ) (g : NjGlobals)
    (e1 e2 : ℕ) (dist : matrix) (buffer : List ℕ) (h : g.seed ≠ 0) :
    support_sample fuel g e1 dist buffer = support_sample fuel g e2 dist buffer := by
  unfold support_sample
  simp [h]

/-- Witness for `support_sample_seed_deterministic`. -/
theorem support_sample_seed_deterministic_witness :
    (NjGlobals.mk 1 42).seed ≠ 0 ∧
      support_sample 10 (NjGlobals.mk 1 42) 5 scenario [1, 2, 3, 0] =
        support_sample 10 (NjGlobals.mk 1 42) 99 scenario [1, 2, 3, 0] :=
  ⟨by decide, support_sample_seed_deterministic 10 _ 5 99 scenario _ (by decide)⟩

/-- First Mantel input matrix of the reproducibility counterexample. -/
def matManA : matrix :=
  { names := ["a", "b", "c"]
    values := [[0, 5, 11], [5, 0, 11], [11, 11, 0]] }

/-- Second Mantel input matrix of the reproducibility counterexample. -/
def matManB : matrix :=
  { names := ["a", "b", "c"]
    values := [[0, 6, 6], [6, 0, 0], [6, 0, 0]] }

theorem sorted_abc : List.Sorted (fun a b : String => a ≤ b) ["a", "b", "c"] := by
  simp [List.sorted_cons]
  refine ⟨⟨?_, ?_⟩, ?_⟩ <;> decide

theorem common_names_abc :
    common_names ["a", "b", "c"] ["a", "b", "c"] = ["a", "b", "c"] := by
  unfold common_names
  rw [List.mergeSort_eq_self sorted_abc]
  rfl

theorem sample2_matManA : sample2 matManA ["a", "b", "c"] = matManA :=
  sample2_self_identity matManA (by decide) (by decide) (by decide)

theorem sample2_matManB : sample2 matManB ["a", "b", "c"] = matManB :=
  sample2_self_identity matManB (by decide) (by decide) (by decide)

theorem sqrtQ_49 : sqrtQ 49 = 7 := by
  norm_num [sqrtQ]
  norm_num [show Int.toNat 49 = 49 from rfl]

theorem sqrtQ_25 : sqrtQ 25 = 5 := by
  norm_num [sqrtQ]
  norm_num [show Int.toNat 25 = 25 from rfl]

theorem idx_a : List.indexOf "a" (["a", "b", "c"] : List String) = 0 := rfl

theorem idx_b : List.indexOf "b" (["a", "b", "c"] : List String) = 1 := rfl

theorem idx_c : List.indexOf "c" (["a", "b", "c"] : List String) = 2 := rfl

theorem rmsd_matMan : rmsd matManA matManB = 7 := by
  have h : rmsd matManA matManB = sqrtQ 49 := by
    rw [rmsd]
    norm_num [matManA, matManB, matrix.entryN, matrix.name_index, matrix.entry,
      Mat.entry, List.range_succ, idx_a, idx_b, idx_c]
  rw [h, sqrtQ_49]

/-- Evaluate the p-value fraction when every trial statistic is the same
value `z`. -/
theorem countP_map_range_div (N : ℕ) (hN : 0 < N) (g : ℕ → ℚ) (o z : ℚ)
    (hg : ∀ x, g x = z) :
    ((((List.range N).map g).countP fun w => decide (o ≤ w)) : ℚ) /
        ((((List.range N).map g)).length : ℚ) =
      if o ≤ z then 1 else 0 := by
  rw [List.countP_map, List.length_map, List.length_range]
  by_cases h : o ≤ z
  · rw [if_pos h, List.countP_eq_length.mpr fun x _ => ?_]
    · rw [List.length_range, div_self (by exact_mod_cast hN.ne')]
    · simp [Function.comp, hg x, decide_eq_true h]
  · rw [if_neg h, List.countP_eq_zero.mpr fun x _ => ?_]
    · norm_num
    · simp [Function.comp, hg x, decide_eq_false h]

set_option maxRecDepth 100000 in
theorem mantel_oracle_id :
    mantel (fun _ => ([0, 1, 2] : List ℕ)) matManA matManB false = 1 := by
  rw [mantel_eq_spec]
  unfold mantel_spec
  simp only [show matManA.names = ["a", "b", "c"] from rfl,
    show matManB.names = ["a", "b", "c"] from rfl, common_names_abc,
    sample2_matManA, sample2_matManB, rmsd_matMan,
    Bool.false_eq_true, if_false]
  refine (countP_map_range_div mantelRuns (by norm_num [mantelRuns]) _ 7 7
    fun x => ?_).trans (if_pos le_rfl)
  norm_num [matManA, matManB, matrix.entry, Mat.entry, List.range_succ,
    sqrtQ_49]

set_option maxRecDepth 100000 in
theorem mantel_oracle_cyc :
    mantel (fun _ => ([1, 2, 0] : List ℕ)) matManA matManB false = 0 := by
  rw [mantel_eq_spec]
  unfold mantel_spec
  simp only [show matManA.names = ["a", "b", "c"] from rfl,
    show matManB.names = ["a", "b", "c"] from rfl, common_names_abc,
    sample2_matManA, sample2_matManB, rmsd_matMan,
    Bool.false_eq_true, if_false]
  refine (countP_map_range_div mantelRuns (by norm_num [mantelRuns]) _ 7 5
    fun x => ?_).trans (if_neg (by norm_num))
  norm_num [matManA, matManB, matrix.entry, Mat.entry, List.range_succ,
    sqrtQ_25]

/-- Counterexample to claim C8: `mantel` owns a freshly entropy-seeded
generator and accepts no seed, so two calls on the same input matrices — all
seed-controllable state equal — can return different p-values; with the
permutation stream of one run the p-value is 1, with that of another it
is 0. -/
theorem mantel_entropy_counterexample :
    mantel (fun _ => ([0, 1, 2] : List ℕ)) matManA matManB false = 1 ∧
      mantel (fun _ => ([1, 2, 0] : List ℕ)) matManA matManB false = 0 ∧
      mantel (fun _ => ([0, 1, 2] : List ℕ)) matManA matManB false ≠
        mantel (fun _ => ([1, 2, 0] : List ℕ)) matManA matManB false := by
  refine ⟨mantel_oracle_id, mantel_oracle_cyc, ?_⟩
  rw [mantel_oracle_id, mantel_oracle_cyc]
  norm_num

/-! ### Claim C1: shape of the NJ tree -/

theorem take_set_comm {α : Type} :
    ∀ (L : List α) (m n : ℕ) (x : α), m < n →
      (L.set m x).take n = (L.take n).set m x := by
  intro L
  induction L with
  | nil => intro m n x _; simp
  | cons a t ih =>
    intro m n x hmn
    cases m with
    | zero =>
      cases n with
      | zero => omega
      | succ n' => simp [List.set_cons_zero, List.take_succ_cons]
    | succ m' =>
      cases n with
      | zero => omega
      | succ n' =>
        simp only [List.set_cons_succ, List.take_succ_cons]
        rw [ih m' n' x (by omega)]

theorem take_set_self {α : Type} :
    ∀ (L : List α) (n : ℕ) (x : α), (L.set n x).take n = L.take n := by
  intro L
  induction L with
  | nil => intro n x; simp
  | cons a t ih =>
    intro n x
    cases n with
    | zero => simp
    | succ n' =>
      simp only [List.set_cons_succ, List.take_succ_cons]
      rw [ih n' x]

theorem eraseIdx_set_lt {α : Type} :
    ∀ (L : List α) (i j : ℕ) (x : α), i < j →
      (L.set i x).eraseIdx j = (L.eraseIdx j).set i x := by
  intro L
  induction L with
  | nil => intro i j x _; simp
  | cons a t ih =>
    intro i j x hij
    cases i with
    | zero =>
      cases j with
      | zero => omega
      | succ j' => simp [List.set_cons_zero, List.eraseIdx_cons_succ]
    | succ i' =>
      cases j with
      | zero => omega
      | succ j' =>
        simp only [List.set_cons_succ, List.eraseIdx_cons_succ]
        rw [ih i' j' x (by omega)]

theorem set_perm {α : Type} (L : List α) (n : ℕ) (x : α) (h : n < L.length) :
    (L.set n x).Perm (x :: L.eraseIdx n) := by
  rw [List.set_eq_take_append_cons_drop, if_pos h, List.eraseIdx_eq_take_drop_succ]
  exact List.perm_middle

theorem self_perm_cons_erase {α : Type} (L : List α) (n : ℕ) (h : n < L.length) :
    L.Perm (L[n] :: L.eraseIdx n) := by
  conv_lhs => rw [← List.take_append_drop n L, List.drop_eq_getElem_cons h]
  rw [List.eraseIdx_eq_take_drop_succ]
  exact List.perm_middle

theorem perm_two_erase {α : Type} (L : List α) (i j : ℕ) (hij : i < j)
    (hj : j < L.length) :
    L.Perm (L[i] :: L[j] :: (L.eraseIdx j).eraseIdx i) := by
  have hlen : (L.eraseIdx j).length = L.length - 1 := by
    rw [List.length_eraseIdx, if_pos hj]
  have hi : i < (L.eraseIdx j).length := by omega
  have h1 := self_perm_cons_erase L j hj
  have h2 := self_perm_cons_erase (L.eraseIdx j) i hi
  have hgi : (L.eraseIdx j)[i] = L[i] := by
    rw [List.getElem_eraseIdx]
    simp [hij]
  rw [hgi] at h2
  exact (h1.trans (h2.cons L[j])).trans (List.Perm.swap _ _ _)

theorem drop_pred_eq {α : Type} (L : List α) (k : ℕ) (hk : L.length = k)
    (h0 : 0 < k) (hlt : k - 1 < L.length) :
    L.drop (k - 1) = [L[k - 1]] := by
  rw [List.drop_eq_getElem_cons (by omega)]
  congr 1
  rw [List.drop_eq_nil_iff]
  omega

/-- One join step replaces the nodes at slots `i` and `j` by the joined node
(up to reordering of the active list). -/
theorem stepNodes_perm (k i j : ℕ) (nodes : List NTree) (M : Mat) (r : List ℚ)
    (hij : i < j) (hjk : j < k) (hlen : nodes.length = k) :
    (stepNodes k i j nodes M r).Perm
      (joinNode nodes M r i j :: (nodes.eraseIdx j).eraseIdx i) := by
  have hik1 : i < k - 1 := by omega
  have hk0 : 0 < k := by omega
  have hkk : k - 1 < nodes.length := by omega
  have hky : k - 1 < (nodes.set i (joinNode nodes M r i j)).length := by
    rw [List.length_set]; omega
  have hgety : (nodes.set i (joinNode nodes M r i j)).getD (k - 1) default =
      nodes[k - 1] := by
    rw [getD_lt _ _ hky, List.getElem_set_ne (by omega)]
  show ((nodes.set i (joinNode nodes M r i j)).set j
      ((nodes.set i (joinNode nodes M r i j)).getD (k - 1) default)).take (k - 1)
      |>.Perm _
  rw [hgety]
  rcases Nat.lt_or_ge j (k - 1) with hjlt | hjge
  · rw [take_set_comm _ _ _ _ hjlt, take_set_comm _ _ _ _ hik1]
    have hLlen : (nodes.take (k - 1)).length = k - 1 := by
      rw [List.length_take]; omega
    have hperm1 : (((nodes.take (k - 1)).set i (joinNode nodes M r i j)).set j
        nodes[k - 1]).Perm
        (nodes[k - 1] :: ((nodes.take (k - 1)).set i (joinNode nodes M r i j)).eraseIdx j) :=
      set_perm _ _ _ (by rw [List.length_set, hLlen]; omega)
    have hcomm : ((nodes.take (k - 1)).set i (joinNode nodes M r i j)).eraseIdx j =
        ((nodes.take (k - 1)).eraseIdx j).set i (joinNode nodes M r i j) :=
      eraseIdx_set_lt _ _ _ _ hij
    have hperm2 : (((nodes.take (k - 1)).eraseIdx j).set i
        (joinNode nodes M r i j)).Perm
        (joinNode nodes M r i j :: ((nodes.take (k - 1)).eraseIdx j).eraseIdx i) :=
      set_perm _ _ _ (by rw [List.length_eraseIdx, if_pos (by omega)]; omega)
    have hdecomp : nodes.eraseIdx j = (nodes.take (k - 1)).eraseIdx j ++ [nodes[k - 1]] := by
      conv_lhs => rw [← List.take_append_drop (k - 1) nodes,
        drop_pred_eq nodes k hlen hk0 (by omega)]
      rw [List.eraseIdx_append_of_lt_length (by omega : j < (nodes.take (k - 1)).length)]
    have hdecomp2 : (nodes.eraseIdx j).eraseIdx i =
        ((nodes.take (k - 1)).eraseIdx j).eraseIdx i ++ [nodes[k - 1]] := by
      rw [hdecomp, List.eraseIdx_append_of_lt_length]
      rw [List.length_eraseIdx, if_pos (by omega)]
      omega
    rw [hcomm] at hperm1
    have h3 := hperm1.trans (hperm2.cons nodes[k - 1])
    have h4 := h3.trans (List.Perm.swap (joinNode nodes M r i j) nodes[k - 1] _)
    rw [hdecomp2]
    exact h4.trans (List.Perm.cons _ (List.perm_append_singleton _ _).symm)
  · have hj : j = k - 1 := by omega
    subst hj
    rw [take_set_self, take_set_comm _ _ _ _ hik1]
    have he : nodes.eraseIdx (k - 1) = nodes.take (k - 1) := by
      rw [List.eraseIdx_eq_take_drop_succ,
        List.drop_eq_nil_of_le (by omega), List.append_nil]
    rw [he]
    exact set_perm _ _ _ (by rw [List.length_take]; omega)

theorem scanPairs_mem (k : ℕ) (p : ℕ × ℕ) (h : p ∈ scanPairs k) :
    p.1 < k ∧ p.2 < k ∧ p.2 ≠ p.1 := by
  simp only [scanPairs, List.mem_flatMap, List.mem_map, List.mem_filter,
    List.mem_range] at h
  obtain ⟨i, hi, j, ⟨hj, hne⟩, rfl⟩ := h
  exact ⟨hi, hj, by simpa using hne⟩

theorem foldl_min_choice {α : Type} (f : α → ℚ) :
    ∀ (ps : List α) (acc : α × ℚ),
      ps.foldl (fun a p => if f p < a.2 then (p, f p) else a) acc = acc ∨
        (ps.foldl (fun a p => if f p < a.2 then (p, f p) else a) acc).1 ∈ ps := by
  intro ps
  induction ps with
  | nil => intro acc; exact Or.inl rfl
  | cons p t ih =>
    intro acc
    rw [List.foldl_cons]
    by_cases h : f p < acc.2
    · rw [if_pos h]
      rcases ih (p, f p) with heq | hmem
      · right
        rw [heq]
        exact List.mem_cons_self _ _
      · right
        exact List.mem_cons_of_mem _ hmem
    · rw [if_neg h]
      rcases ih acc with heq | hmem
      · exact Or.inl heq
      · right
        exact List.mem_cons_of_mem _ hmem

theorem scanMin_fst_valid (k : ℕ) (M : Mat) (r : List ℚ) (hk : 2 ≤ k) :
    (scanMin k M r).1.1 < k ∧ (scanMin k M r).1.2 < k ∧
      (scanMin k M r).1.2 ≠ (scanMin k M r).1.1 := by
  rcases foldl_min_choice (qval M r) (scanPairs k) ((0, 1), qval M r (0, 1))
    with heq | hmem
  · have h2 : scanMin k M r = ((0, 1), qval M r (0, 1)) := heq
    rw [h2]
    exact ⟨by show (0 : ℕ) < k; omega, by show (1 : ℕ) < k; omega,
      by show (1 : ℕ) ≠ 0; omega⟩
  · have h2 : (scanMin k M r).1 ∈ scanPairs k := hmem
    have h3 := scanPairs_mem k _ h2
    exact ⟨h3.1, h3.2.1, h3.2.2⟩

theorem selectPair_bounds (k : ℕ) (M : Mat) (r : List ℚ) (hk : 2 ≤ k) :
    (selectPair k M r).1 < (selectPair k M r).2 ∧ (selectPair k M r).2 < k := by
  have h := scanMin_fst_valid k M r hk
  unfold selectPair
  by_cases hlt : (scanMin k M r).1.2 < (scanMin k M r).1.1
  · rw [if_pos hlt]
    exact ⟨hlt, h.1⟩
  · rw [if_neg hlt]
    refine ⟨?_, h.2.1⟩
    omega

theorem stepNodes_length (k i j : ℕ) (nodes : List NTree) (M : Mat) (r : List ℚ)
    (hlen : nodes.length = k) (hk : 0 < k) :
    (stepNodes k i j nodes M r).length = k - 1 := by
  show (((nodes.set i (joinNode nodes M r i j)).set j _).take (k - 1)).length = k - 1
  rw [List.length_take, List.length_set, List.length_set, hlen]
  omega

theorem joinNode_leafIdxs (nodes : List NTree) (M : Mat) (r : List ℚ) (i j : ℕ)
    (hik : i < nodes.length) (hjk : j < nodes.length) :
    (joinNode nodes M r i j).leafIdxs = nodes[i].leafIdxs ++ nodes[j].leafIdxs := by
  rw [joinNode, NTree.leafIdxs, getD_lt _ _ hik, getD_lt _ _ hjk]

theorem joinNode_joinCount (nodes : List NTree) (M : Mat) (r : List ℚ) (i j : ℕ)
    (hik : i < nodes.length) (hjk : j < nodes.length) :
    (joinNode nodes M r i j).joinCount =
      nodes[i].joinCount + nodes[j].joinCount + 1 := by
  rw [joinNode, NTree.joinCount, getD_lt _ _ hik, getD_lt _ _ hjk]

/-- Loop invariant of the NJ join loop: the active count drops by one per
iteration, the multiset of leaf indices over the active nodes is preserved,
and each iteration creates exactly one join node. -/
theorem njLoop_inv :
    ∀ (fuel k : ℕ) (nodes : List NTree) (M : Mat),
      nodes.length = k → fuel + 3 ≤ k →
      (njLoop fuel k nodes M).1.length = k - fuel ∧
        ((njLoop fuel k nodes M).1.map NTree.leafIdxs).flatten.Perm
          ((nodes.map NTree.leafIdxs).flatten) ∧
        ((njLoop fuel k nodes M).1.map NTree.joinCount).sum =
          (nodes.map NTree.joinCount).sum + fuel := by
  intro fuel
  induction fuel with
  | zero =>
    intro k nodes M hlen _
    exact ⟨by simpa using hlen, List.Perm.refl _, by simp [njLoop]⟩
  | succ fuel ih =>
    intro k nodes M hlen hk
    have hb := selectPair_bounds k M (rvec k M) (by omega)
    have hlen' := stepNodes_length k (selectPair k M (rvec k M)).1
      (selectPair k M (rvec k M)).2 nodes M (rvec k M) hlen (by omega)
    have ihh := ih (k - 1)
      (stepNodes k (selectPair k M (rvec k M)).1 (selectPair k M (rvec k M)).2
        nodes M (rvec k M))
      (stepMat k (selectPair k M (rvec k M)).1 (selectPair k M (rvec k M)).2 M)
      hlen' (by omega)
    have hsp := stepNodes_perm k (selectPair k M (rvec k M)).1
      (selectPair k M (rvec k M)).2 nodes M (rvec k M) hb.1 hb.2 hlen
    have hij : (selectPair k M (rvec k M)).1 < nodes.length := by
      rw [hlen]; omega
    have hjj : (selectPair k M (rvec k M)).2 < nodes.length := by
      rw [hlen]; omega
    have htwo := perm_two_erase nodes (selectPair k M (rvec k M)).1
      (selectPair k M (rvec k M)).2 hb.1 hjj
    have hunfold :
        njLoop (fuel + 1) k nodes M =
          njLoop fuel (k - 1)
            (stepNodes k (selectPair k M (rvec k M)).1
              (selectPair k M (rvec k M)).2 nodes M (rvec k M))
            (stepMat k (selectPair k M (rvec k M)).1
              (selectPair k M (rvec k M)).2 M) := rfl
    rw [hunfold]
    refine ⟨by rw [ihh.1]; omega, ?_, ?_⟩
    · refine ihh.2.1.trans ?_
      have h1 := (hsp.map NTree.leafIdxs).flatten
      refine h1.trans ?_
      have h2 := (htwo.map NTree.leafIdxs).flatten
      rw [List.map_cons, List.flatten_cons,
        joinNode_leafIdxs nodes M (rvec k M) _ _ hij hjj]
      simp only [List.map_cons, List.flatten_cons] at h2
      rw [List.append_assoc]
      exact h2.symm
    · rw [ihh.2.2]
      have hs1 := (hsp.map NTree.joinCount).sum_eq
      have hs2 := (htwo.map NTree.joinCount).sum_eq
      rw [hs1, List.map_cons, List.sum_cons,
        joinNode_joinCount nodes M (rvec k M) _ _ hij hjj]
      simp only [List.map_cons, List.sum_cons] at hs2
      rw [hs2]
      omega

theorem map_singleton_flatten : ∀ l : List ℕ, (l.map fun i => [i]).flatten = l := by
  intro l
  induction l with
  | nil => rfl
  | cons a t ih => simp [ih]

theorem leafCount_eq_length_leafIdxs : ∀ t : NTree, t.leafCount = t.leafIdxs.length := by
  intro t
  induction t with
  | leaf i => rfl
  | node l r ld rd ls rs ihl ihr =>
    simp [NTree.leafCount, NTree.leafIdxs, ihl, ihr]

/-- Claim C1: for `n ≥ 4` names the NJ tree has exactly `n` leaves whose
indices are exactly `0..n-1`, exactly `n-3` pairwise-join internal nodes,
and the ternary root, for `n-2` internal structures in total. -/
theorem nj_tree_shape (m : matrix) (h : 4 ≤ m.get_size) :
    (nj m).l.leafCount + (nj m).r.leafCount + (nj m).e.leafCount = m.get_size ∧
    ((nj m).l.leafIdxs ++ (nj m).r.leafIdxs ++ (nj m).e.leafIdxs).Perm
      (List.range m.get_size) ∧
    (nj m).l.joinCount + (nj m).r.joinCount + (nj m).e.joinCount =
      m.get_size - 3 ∧
    (nj m).l.joinCount + (nj m).r.joinCount + (nj m).e.joinCount + 1 =
      m.get_size - 2 := by
  have hlen0 : ((List.range m.get_size).map NTree.leaf).length = m.get_size := by
    simp
  have inv := njLoop_inv (m.get_size - 3) m.get_size
    ((List.range m.get_size).map NTree.leaf) m.values hlen0 (by omega)
  have hL : (njLoop (m.get_size - 3) m.get_size
      ((List.range m.get_size).map NTree.leaf) m.values).1.length = 3 := by
    rw [inv.1]; omega
  obtain ⟨a, b, c, habc⟩ := List.length_eq_three.mp hL
  have hla : (nj m).l = a := by
    show (njLoop (m.get_size - 3) m.get_size
      ((List.range m.get_size).map NTree.leaf) m.values).1.getD 0 default = a
    rw [habc]; rfl
  have hlb : (nj m).r = b := by
    show (njLoop (m.get_size - 3) m.get_size
      ((List.range m.get_size).map NTree.leaf) m.values).1.getD 1 default = b
    rw [habc]; rfl
  have hlc : (nj m).e = c := by
    show (njLoop (m.get_size - 3) m.get_size
      ((List.range m.get_size).map NTree.leaf) m.values).1.getD 2 default = c
    rw [habc]; rfl
  have hinit : ((((List.range m.get_size).map NTree.leaf).map NTree.leafIdxs).flatten) =
      List.range m.get_size := by
    rw [List.map_map]
    exact map_singleton_flatten _
  have hperm : (a.leafIdxs ++ b.leafIdxs ++ c.leafIdxs).Perm
      (List.range m.get_size) := by
    have hp := inv.2.1
    rw [habc, hinit] at hp
    simpa [List.append_assoc] using hp
  have hjinit : ((((List.range m.get_size).map NTree.leaf).map NTree.joinCount)).sum = 0 := by
    rw [List.map_map]
    have : (NTree.joinCount ∘ NTree.leaf) = fun _ : ℕ => 0 := rfl
    rw [this, List.map_const']
    simp
  have hjoins : a.joinCount + b.joinCount + c.joinCount = m.get_size - 3 := by
    have hj := inv.2.2
    rw [habc, hjinit] at hj
    simp only [List.map_cons, List.map_nil, List.sum_cons, List.sum_nil] at hj
    omega
  rw [hla, hlb, hlc]
  refine ⟨?_, hperm, hjoins, by omega⟩
  have hlenp := hperm.length_eq
  simp only [List.length_append, List.length_range] at hlenp
  rw [leafCount_eq_length_leafIdxs a, leafCount_eq_length_leafIdxs b,
    leafCount_eq_length_leafIdxs c]
  omega

/-- Witness for `nj_tree_shape` at the scenario matrix. -/
theorem nj_tree_shape_witness :
    4 ≤ scenario.get_size ∧
      ((nj scenario).l.leafCount + (nj scenario).r.leafCount +
          (nj scenario).e.leafCount = scenario.get_size ∧
        ((nj scenario).l.leafIdxs ++ (nj scenario).r.leafIdxs ++
            (nj scenario).e.leafIdxs).Perm (List.range scenario.get_size) ∧
        (nj scenario).l.joinCount + (nj scenario).r.joinCount +
            (nj scenario).e.joinCount = scenario.get_size - 3 ∧
        (nj scenario).l.joinCount + (nj scenario).r.joinCount +
            (nj scenario).e.joinCount + 1 = scenario.get_size - 2) :=
  ⟨by decide, nj_tree_shape scenario (by decide)⟩

/-! ### Claim C2: the Q-minimum scan and its tie-break -/

/-- Symmetry of the active window of a working matrix. -/
def SymmetricOn (M : Mat) (k : ℕ) : Prop :=
  ∀ i j, i < k → j < k → M.entry i j = M.entry j i

theorem entry_grid (n : ℕ) (f : ℕ → ℕ → ℚ) (s t : ℕ) (hs : s < n) (ht : t < n) :
    Mat.entry ((List.range n).map fun a => (List.range n).map fun b => f a b) s t =
      f s t := by
  unfold Mat.entry
  have h1 : ((List.range n).map fun a => (List.range n).map fun b => f a b).getD s [] =
      (List.range n).map fun b => f s b := by
    rw [List.getD_eq_getElem _ _ (by simpa using hs), List.getElem_map,
      List.getElem_range]
  rw [h1, List.getD_eq_getElem _ _ (by simpa using ht), List.getElem_map,
    List.getElem_range]

theorem rvec_getD (k : ℕ) (M : Mat) (i : ℕ) (hi : i < k) :
    (rvec k M).getD i 0 =
      (((List.range k).map fun j => M.entry i j).sum) / ((k : ℚ) - 2) := by
  unfold rvec
  rw [List.getD_eq_getElem _ _ (by simpa using hi), List.getElem_map,
    List.getElem_range]

theorem scanPairs_pairwise (k : ℕ) :
    List.Pairwise (fun p q : ℕ × ℕ => p.1 < q.1 ∨ (p.1 = q.1 ∧ p.2 < q.2))
      (scanPairs k) := by
  rw [scanPairs, List.pairwise_flatMap]
  constructor
  · intro i _
    rw [List.pairwise_map]
    exact ((List.pairwise_lt_range k).filter _).imp fun h => Or.inr ⟨rfl, h⟩
  · refine (List.pairwise_lt_range k).imp ?_
    intro a b hab x hx y hy
    simp only [List.mem_map, List.mem_filter, List.mem_range] at hx hy
    obtain ⟨j1, _, rfl⟩ := hx
    obtain ⟨j2, _, rfl⟩ := hy
    exact Or.inl hab

theorem scanPairs_complete (k i j : ℕ) (hi : i < k) (hj : j < k) (hne : j ≠ i) :
    (i, j) ∈ scanPairs k := by
  simp only [scanPairs, List.mem_flatMap, List.mem_map, List.mem_filter,
    List.mem_range]
  exact ⟨i, hi, j, ⟨hj, by simpa using hne⟩, rfl⟩

/-- The strict-replacement fold keeps the first minimum: the scanned list
decomposes around the kept element, with strictly larger values before it
and no smaller value after it. -/
theorem foldl_min_first {α : Type} (f : α → ℚ) :
    ∀ (ps : List α) (a : α),
      ∃ pre post,
        a :: ps =
          pre ++ (ps.foldl (fun acc p => if f p < acc.2 then (p, f p) else acc)
            (a, f a)).1 :: post ∧
        (∀ q ∈ pre,
          f (ps.foldl (fun acc p => if f p < acc.2 then (p, f p) else acc)
            (a, f a)).1 < f q) ∧
        (∀ q ∈ post,
          f (ps.foldl (fun acc p => if f p < acc.2 then (p, f p) else acc)
            (a, f a)).1 ≤ f q) := by
  intro ps
  induction ps with
  | nil =>
    intro a
    exact ⟨[], [], rfl, by simp, by simp⟩
  | cons p t ih =>
    intro a
    rw [List.foldl_cons]
    by_cases h : f p < f a
    · rw [if_pos h]
      obtain ⟨pre, post, hdec, hpre, hpost⟩ := ih p
      have hmin : f (t.foldl (fun acc p => if f p < acc.2 then (p, f p) else acc)
          (p, f p)).1 ≤ f p := by
        cases pre with
        | nil =>
          have hres := List.cons.injEq p t _ _ |>.mp (by simpa using hdec)
          exact le_of_eq (congrArg f hres.1).symm
        | cons x pre2 =>
          have hx := List.cons.injEq p t _ _ |>.mp (by simpa using hdec)
          exact le_of_lt (lt_of_lt_of_eq (hpre x (List.mem_cons_self _ _))
            (congrArg f hx.1).symm)
      refine ⟨a :: pre, post, by rw [List.cons_append, ← hdec], ?_, hpost⟩
      intro q hq
      rcases List.mem_cons.mp hq with rfl | hq2
      · exact lt_of_le_of_lt hmin h
      · exact hpre q hq2
    · rw [if_neg h]
      obtain ⟨pre, post, hdec, hpre, hpost⟩ := ih a
      cases pre with
      | nil =>
        have hres := List.cons.injEq a t _ _ |>.mp (by simpa using hdec)
        refine ⟨[], p :: t, ?_, by simp, ?_⟩
        · rw [List.nil_append, ← hres.1]
        · intro q hq
          rcases List.mem_cons.mp hq with rfl | hq2
          · rw [← hres.1]
            exact not_lt.mp h
          · rw [← hres.1]
            rw [← hres.1] at hpost
            exact hpost q (hres.2 ▸ hq2)
      | cons x pre2 =>
        have hx := List.cons.injEq a t _ _ |>.mp (by simpa using hdec)
        have hra : f (t.foldl (fun acc p => if f p < acc.2 then (p, f p) else acc)
            (a, f a)).1 < f a :=
          lt_of_lt_of_eq (hpre x (List.mem_cons_self _ _)) (congrArg f hx.1).symm
        refine ⟨a :: p :: pre2, post, ?_, ?_, hpost⟩
        · rw [List.cons_append, List.cons_append, ← hx.2]
        · intro q hq
          rcases List.mem_cons.mp hq with rfl | hq2
          · exact hra
          · rcases List.mem_cons.mp hq2 with rfl | hq3
            · exact lt_of_lt_of_le hra (not_lt.mp h)
            · exact hpre q (List.mem_cons_of_mem _ hq3)

theorem scanMin_first (k : ℕ) (M : Mat) (r : List ℚ) :
    ∃ pre post,
      (0, 1) :: scanPairs k = pre ++ (scanMin k M r).1 :: post ∧
        (∀ q ∈ pre, qval M r (scanMin k M r).1 < qval M r q) ∧
        ∀ q ∈ post, qval M r (scanMin k M r).1 ≤ qval M r q :=
  foldl_min_first (qval M r) (scanPairs k) (0, 1)

/-- Under symmetry of the Q-values, `selectPair` returns an ordered pair
minimizing Q, and among tied minima the lexicographically-earliest ordered
pair in scan order. -/
theorem selectPair_spec (k : ℕ) (M : Mat) (r : List ℚ) (hk : 2 ≤ k)
    (hq : ∀ x y, x < k → y < k → qval M r (x, y) = qval M r (y, x)) :
    ((selectPair k M r).1 < (selectPair k M r).2 ∧ (selectPair k M r).2 < k) ∧
      (∀ i j, i < j → j < k →
        qval M r (selectPair k M r) ≤ qval M r (i, j)) ∧
      (∀ i j, i < j → j < k → qval M r (i, j) = qval M r (selectPair k M r) →
        (selectPair k M r).1 < i ∨
          ((selectPair k M r).1 = i ∧ (selectPair k M r).2 ≤ j)) := by
  obtain ⟨pre, post, hdec, hpre, hpost⟩ := scanMin_first k M r
  have hval := scanMin_fst_valid k M r hk
  rcases hsm : (scanMin k M r).1 with ⟨a, b⟩
  rw [hsm] at hdec hpre hpost hval
  obtain ⟨ha, hb, hne0⟩ := hval
  have hne : b ≠ a := by simpa using hne0
  have hloc : ∀ q : ℕ × ℕ, q.1 < k → q.2 < k → q.2 ≠ q.1 →
      q ∈ pre ∨ q = (a, b) ∨ q ∈ post := by
    intro q h1 h2 h3
    have hm : q ∈ (0, 1) :: scanPairs k := by
      refine List.mem_cons_of_mem _ ?_
      have := scanPairs_complete k q.1 q.2 h1 h2 h3
      simpa using this
    rw [hdec] at hm
    rcases List.mem_append.mp hm with h | h
    · exact Or.inl h
    · rcases List.mem_cons.mp h with h | h
      · exact Or.inr (Or.inl h)
      · exact Or.inr (Or.inr h)
  have hmin : ∀ q : ℕ × ℕ, q.1 < k → q.2 < k → q.2 ≠ q.1 →
      qval M r (a, b) ≤ qval M r q := by
    intro q h1 h2 h3
    rcases hloc q h1 h2 h3 with h | h | h
    · exact le_of_lt (hpre q h)
    · rw [h]
    · exact hpost q h
  have horder : ∀ q ∈ post,
      a < q.1 ∨ (a = q.1 ∧ b < q.2) ∨ (a = 0 ∧ b = 1) := by
    cases pre with
    | nil =>
      intro q _
      simp only [List.nil_append] at hdec
      have h01 := (List.cons.injEq _ _ _ _).mp hdec
      have h0a : (0 : ℕ) = a := by simpa using congrArg Prod.fst h01.1
      have h1b : (1 : ℕ) = b := by simpa using congrArg Prod.snd h01.1
      exact Or.inr (Or.inr ⟨h0a.symm, h1b.symm⟩)
    | cons x pre2 =>
      intro q hq'
      simp only [List.cons_append] at hdec
      have hx := (List.cons.injEq _ _ _ _).mp hdec
      have hp := scanPairs_pairwise k
      rw [hx.2] at hp
      have h2 := (List.pairwise_append.mp hp).2.1
      have h3 := (List.pairwise_cons.mp h2).1 q hq'
      rcases h3 with h | h
      · exact Or.inl (by simpa using h)
      · exact Or.inr (Or.inl (by simpa using h))
  have hsorted : a < b := by
    rcases Nat.lt_or_ge a b with h | h
    · exact h
    · exfalso
      have hba : b < a := by omega
      have hqs : qval M r (b, a) = qval M r (a, b) := hq b a hb ha
      rcases hloc (b, a) (by simpa using hb) (by simpa using ha)
          (by simpa using hne.symm) with hl | hl | hl
      · have hlt := hpre _ hl
        rw [hqs] at hlt
        exact lt_irrefl _ hlt
      · have : b = a := by simpa using congrArg Prod.fst hl
        omega
      · rcases horder _ hl with h2 | h2 | h2
        · simp at h2; omega
        · simp at h2; omega
        · rcases h2 with ⟨h2a, h2b⟩; omega
  have hsel : selectPair k M r = (a, b) := by
    unfold selectPair
    rw [hsm]
    simp only
    rw [if_neg (by simp; omega)]
  rw [hsel]
  refine ⟨⟨hsorted, hb⟩, ?_, ?_⟩
  · intro i j hij hjk
    exact hmin (i, j) (by simpa using (by omega : i < k)) (by simpa using hjk)
      (by simpa using Nat.ne_of_gt hij)
  · intro i j hij hjk heq
    rcases hloc (i, j) (by simpa using (by omega : i < k)) (by simpa using hjk)
        (by simpa using Nat.ne_of_gt hij) with hl | hl | hl
    · have hlt := hpre _ hl
      rw [heq] at hlt
      exact absurd hlt (lt_irrefl _)
    · have h1 : i = a := by simpa using congrArg Prod.fst hl
      have h2 : j = b := by simpa using congrArg Prod.snd hl
      exact Or.inr ⟨h1.symm, by omega⟩
    · rcases horder _ hl with h2 | h2 | h2
      · exact Or.inl (by simpa using h2)
      · refine Or.inr ⟨(by simpa using h2.1), ?_⟩
        have := h2.2
        simp at this
        omega
      · rcases h2 with ⟨rfl, rfl⟩
        rcases Nat.eq_zero_or_pos i with rfl | hi
        · exact Or.inr ⟨rfl, by omega⟩
        · exact Or.inl (by omega)

theorem stepMat_entry (k i j : ℕ) (M : Mat) (s t : ℕ) (hs : s < k - 1)
    (ht : t < k - 1) :
    Mat.entry (stepMat k i j M) s t =
      if s = i ∧ t = i then 0
      else if s = j ∧ t = j then 0
      else if s = i then dnew M i j (if t = j then k - 1 else t)
      else if t = i then dnew M i j (if s = j then k - 1 else s)
      else if t = j then M.entry (k - 1) s
      else M.entry (if s = j then k - 1 else s) t :=
  entry_grid (k - 1)
    (fun a b =>
      if a = i ∧ b = i then 0
      else if a = j ∧ b = j then 0
      else if a = i then dnew M i j (if b = j then k - 1 else b)
      else if b = i then dnew M i j (if a = j then k - 1 else a)
      else if b = j then M.entry (k - 1) a
      else M.entry (if a = j then k - 1 else a) b)
    s t hs ht

/-- The matrix compaction step preserves symmetry of the active window. -/
theorem stepMat_symm (k i j : ℕ) (M : Mat) (hij : i < j) (hjk : j < k)
    (hsym : SymmetricOn M k) : SymmetricOn (stepMat k i j M) (k - 1) := by
  intro s t hs ht
  rw [stepMat_entry k i j M s t hs ht, stepMat_entry k i j M t s ht hs]
  have hij' : ¬ i = j := by omega
  have hji' : ¬ j = i := by omega
  by_cases hsi : s = i <;> by_cases hti : t = i <;> by_cases hsj : s = j <;>
    by_cases htj : t = j <;>
    (simp_all; try exact hsym s t (by omega) (by omega))

/-- Claim C2: in an NJ iteration with active size `k > 3` on a symmetric
active window, the divergence vector satisfies `r[i] = (Σ_j M[i][j])/(k-2)`;
the joined pair `(i*, j*) = selectPair` has `i* < j* < k`, minimizes
`Q[i][j] = M[i][j] - r[i] - r[j]` over all active sorted pairs, and among
ties is the lexicographically-earliest pair in scan order (i ascending then
j ascending, replaced only on a strictly smaller value); and the compacted
matrix handed to the next iteration is again symmetric on its active window,
so the hypothesis propagates down the loop. -/
theorem nj_argmin_tiebreak (k : ℕ) (M : Mat) (hk : 3 < k)
    (hsym : SymmetricOn M k) :
    (∀ i, i < k → (rvec k M).getD i 0 =
        (((List.range k).map fun j => M.entry i j).sum) / ((k : ℚ) - 2)) ∧
    ((selectPair k M (rvec k M)).1 < (selectPair k M (rvec k M)).2 ∧
      (selectPair k M (rvec k M)).2 < k) ∧
    (∀ i j, i < j → j < k →
      qval M (rvec k M) (selectPair k M (rvec k M)) ≤
        qval M (rvec k M) (i, j)) ∧
    (∀ i j, i < j → j < k →
      qval M (rvec k M) (i, j) =
        qval M (rvec k M) (selectPair k M (rvec k M)) →
      (selectPair k M (rvec k M)).1 < i ∨
        ((selectPair k M (rvec k M)).1 = i ∧
          (selectPair k M (rvec k M)).2 ≤ j)) ∧
    SymmetricOn
      (stepMat k (selectPair k M (rvec k M)).1 (selectPair k M (rvec k M)).2 M)
      (k - 1) := by
  have hq : ∀ x y, x < k → y < k →
      qval M (rvec k M) (x, y) = qval M (rvec k M) (y, x) := by
    intro x y hx hy
    unfold qval
    rw [show Mat.entry M x y = Mat.entry M y x from hsym x y hx hy]
    ring
  have hs := selectPair_spec k M (rvec k M) (by omega) hq
  exact ⟨fun i hi => rvec_getD k M i hi, hs.1, hs.2.1, hs.2.2,
    stepMat_symm k _ _ M hs.1.1 hs.1.2 hsym⟩

/-- Witness: the theorem applied to the worked 4-species distance matrix of
the spec, whose value store is symmetric on its full 4-window. -/
theorem nj_argmin_tiebreak_witness :
    SymmetricOn scenario.values 4 ∧
    SymmetricOn
      (stepMat 4 (selectPair 4 scenario.values (rvec 4 scenario.values)).1
        (selectPair 4 scenario.values (rvec 4 scenario.values)).2
        scenario.values) 3 := by
  have h : SymmetricOn scenario.values 4 := by
    intro i j hi hj
    interval_cases i <;> interval_cases j <;> rfl
  exact ⟨h, (nj_argmin_tiebreak 4 scenario.values (by norm_num) h).2.2.2.2⟩

theorem colorize_length : ∀ (t : NTree) (buf : List ℕ) (c : ℕ),
    (colorize t buf c).length = buf.length := by
  intro t
  induction t with
  | leaf i => intro buf c; simp [colorize]
  | node l r ld rd ls rs ihl ihr =>
    intro buf c
    show (colorize r (colorize l buf c) c).length = buf.length
    rw [ihr, ihl]

/-- What `colorize` leaves at position `p`: the color if `p` is a leaf index
of the painted subtree (and in range), the old cell otherwise. -/
theorem colorize_getD : ∀ (t : NTree) (buf : List ℕ) (c p : ℕ),
    (colorize t buf c).getD p SET_D =
      if p ∈ t.leafIdxs ∧ p < buf.length then c else buf.getD p SET_D := by
  intro t
  induction t with
  | leaf i =>
    intro buf c p
    show (buf.set i c).getD p SET_D = _
    by_cases hpi : p = i
    · subst hpi
      by_cases hlt : p < buf.length
      · rw [getD_set_self' _ _ _ _ hlt]
        simp [NTree.leafIdxs, hlt]
      · rw [List.set_eq_of_length_le (by omega)]
        simp [NTree.leafIdxs, hlt]
    · rw [getD_set_ne' _ _ _ _ _ (fun he => hpi he.symm)]
      simp [NTree.leafIdxs, hpi]
  | node l r ld rd ls rs ihl ihr =>
    intro buf c p
    show (colorize r (colorize l buf c) c).getD p SET_D = _
    rw [ihr, colorize_length, ihl]
    simp only [NTree.leafIdxs, List.mem_append]
    by_cases hl : p ∈ l.leafIdxs <;> by_cases hr : p ∈ r.leafIdxs <;>
      by_cases hp : p < buf.length <;> simp [hl, hr, hp]

theorem leafIdxs_ne_nil : ∀ t : NTree, t.leafIdxs ≠ [] := by
  intro t
  induction t with
  | leaf i => simp [NTree.leafIdxs]
  | node l r ld rd ls rs ihl ihr =>
    simp only [NTree.leafIdxs, ne_eq, List.append_eq_nil]
    exact fun h => ihl h.1

/-- With the three painted leaf-index sets and a nonempty remainder
partitioning `0..n-1`, every quartet color class of the painted buffer is
inhabited, so the quartet enumeration is nonempty. -/
theorem quartetList_ne_nil (n : ℕ) (A B C : NTree) (R : List ℕ)
    (hperm : (A.leafIdxs ++ (B.leafIdxs ++ (C.leafIdxs ++ R))).Perm
      (List.range n))
    (hR : R ≠ []) :
    quartetList n
      (colorize C (colorize B (colorize A (List.replicate n SET_D) SET_A)
        SET_B) SET_C) ≠ [] := by
  have hnd : (A.leafIdxs ++ (B.leafIdxs ++ (C.leafIdxs ++ R))).Nodup :=
    hperm.symm.nodup (List.nodup_range n)
  simp only [List.nodup_append, List.disjoint_append_right] at hnd
  obtain ⟨-, ⟨-, ⟨-, -, hdCR⟩, hdBC, hdBR⟩, hdAB, hdAC, hdAR⟩ := hnd
  have hlt : ∀ x, x ∈ A.leafIdxs ++ (B.leafIdxs ++ (C.leafIdxs ++ R)) →
      x < n := by
    intro x hx
    exact List.mem_range.mp (hperm.mem_iff.mp hx)
  have hval : ∀ p, p < n →
      (colorize C (colorize B (colorize A (List.replicate n SET_D) SET_A)
        SET_B) SET_C).getD p SET_D =
        if p ∈ C.leafIdxs then SET_C
        else if p ∈ B.leafIdxs then SET_B
        else if p ∈ A.leafIdxs then SET_A else SET_D := by
    intro p hp
    rw [colorize_getD, colorize_length, colorize_length,
      List.length_replicate, colorize_getD, colorize_length,
      List.length_replicate, colorize_getD, List.length_replicate]
    have hrep : (List.replicate n SET_D).getD p SET_D = SET_D := by
      rw [getD_lt _ _ (by simpa using hp)]
      simp
    simp [hp, hrep]
  obtain ⟨a, ha⟩ := List.exists_mem_of_ne_nil _ (leafIdxs_ne_nil A)
  obtain ⟨b, hb⟩ := List.exists_mem_of_ne_nil _ (leafIdxs_ne_nil B)
  obtain ⟨c, hc⟩ := List.exists_mem_of_ne_nil _ (leafIdxs_ne_nil C)
  obtain ⟨d, hd⟩ := List.exists_mem_of_ne_nil _ hR
  have han : a < n := hlt a (by simp [ha])
  have hbn : b < n := hlt b (by simp [hb])
  have hcn : c < n := hlt c (by simp [hc])
  have hdn : d < n := hlt d (by simp [hd])
  have haA : a ∈ classIdxs n
      (colorize C (colorize B (colorize A (List.replicate n SET_D) SET_A)
        SET_B) SET_C) SET_A := by
    have hnB : a ∉ B.leafIdxs := fun h => hdAB ha h
    have hnC : a ∉ C.leafIdxs := fun h => hdAC ha h
    simp only [classIdxs, List.mem_filter, List.mem_range]
    refine ⟨han, ?_⟩
    rw [hval a han, if_neg hnC, if_neg hnB, if_pos ha]
    rfl
  have hbB : b ∈ classIdxs n
      (colorize C (colorize B (colorize A (List.replicate n SET_D) SET_A)
        SET_B) SET_C) SET_B := by
    have hnC : b ∉ C.leafIdxs := fun h => hdBC hb h
    simp only [classIdxs, List.mem_filter, List.mem_range]
    refine ⟨hbn, ?_⟩
    rw [hval b hbn, if_neg hnC, if_pos hb]
    rfl
  have hcC : c ∈ classIdxs n
      (colorize C (colorize B (colorize A (List.replicate n SET_D) SET_A)
        SET_B) SET_C) SET_C := by
    simp only [classIdxs, List.mem_filter, List.mem_range]
    refine ⟨hcn, ?_⟩
    rw [hval c hcn, if_pos hc]
    rfl
  have hdD : d ∈ classIdxs n
      (colorize C (colorize B (colorize A (List.replicate n SET_D) SET_A)
        SET_B) SET_C) SET_D := by
    have hnA : d ∉ A.leafIdxs := fun h => hdAR h hd
    have hnB : d ∉ B.leafIdxs := fun h => hdBR h hd
    have hnC : d ∉ C.leafIdxs := fun h => hdCR h hd
    simp only [classIdxs, List.mem_filter, List.mem_range]
    refine ⟨hdn, ?_⟩
    rw [hval d hdn, if_neg hnC, if_neg hnB, if_neg hnA]
    rfl
  refine List.ne_nil_of_mem (a := (a, b, c, d)) ?_
  unfold quartetList
  refine List.mem_flatMap.mpr ⟨a, haA, ?_⟩
  refine List.mem_flatMap.mpr ⟨b, hbB, ?_⟩
  refine List.mem_flatMap.mpr ⟨c, hcC, ?_⟩
  exact List.mem_map.mpr ⟨d, hdD, rfl⟩

theorem append_perm_rotate {α : Type} (x y z w : List α) :
    (y ++ (z ++ (x ++ w))).Perm (x ++ (y ++ (z ++ w))) := by
  have h1 : ((y ++ z) ++ x).Perm (x ++ (y ++ z)) := List.perm_append_comm
  have h2 := h1.append_right w
  simpa [List.append_assoc] using h2

/-- Every buffer `quartet_left`/`quartet_right` passes to the support
function inside a subtree whose complement `rest` is nonempty enumerates at
least one quartet. -/
theorem nodeInvocations_quartets (n : ℕ) :
    ∀ (t : NTree) (rest : List ℕ),
      (t.leafIdxs ++ rest).Perm (List.range n) → rest ≠ [] →
      ∀ buf ∈ nodeInvocations n t, quartetList n buf ≠ [] := by
  intro t
  induction t with
  | leaf i =>
    intro rest _ _ buf hbuf
    simp [nodeInvocations] at hbuf
  | node l r ld rd ls rs ihl ihr =>
    intro rest hperm hrest buf hbuf
    have hperm' : (l.leafIdxs ++ (r.leafIdxs ++ rest)).Perm (List.range n) := by
      simpa [NTree.leafIdxs, List.append_assoc] using hperm
    simp only [nodeInvocations, List.mem_append] at hbuf
    rcases hbuf with ((h1 | h2) | h3) | h4
    · by_cases hl : l.isNode
      · rw [if_pos hl, List.mem_singleton] at h1
        subst h1
        cases l with
        | leaf i => simp [NTree.isNode] at hl
        | node ll lr lld lrd lls lrs =>
          refine quartetList_ne_nil n ll lr r rest ?_ hrest
          simpa [NTree.leafIdxs, List.append_assoc] using hperm
      · rw [if_neg hl] at h1
        simp at h1
    · by_cases hr : r.isNode
      · rw [if_pos hr, List.mem_singleton] at h2
        subst h2
        cases r with
        | leaf i => simp [NTree.isNode] at hr
        | node rl rr rld rrd rls rrs =>
          refine quartetList_ne_nil n rl rr l rest ?_ hrest
          refine (append_perm_rotate l.leafIdxs rl.leafIdxs rr.leafIdxs
            rest).trans ?_
          simpa [NTree.leafIdxs, List.append_assoc] using hperm
      · rw [if_neg hr] at h2
        simp at h2
    · refine ihl (r.leafIdxs ++ rest) hperm' ?_ buf h3
      exact fun h => leafIdxs_ne_nil r (List.append_eq_nil.mp h).1
    · refine ihr (l.leafIdxs ++ rest) ?_ ?_ buf h4
      · have hcomm : ((r.leafIdxs ++ l.leafIdxs) ++ rest).Perm
            ((l.leafIdxs ++ r.leafIdxs) ++ rest) :=
          List.perm_append_comm.append_right rest
        have hcomm' : (r.leafIdxs ++ (l.leafIdxs ++ rest)).Perm
            (l.leafIdxs ++ (r.leafIdxs ++ rest)) := by
          simpa [List.append_assoc] using hcomm
        exact hcomm'.trans hperm'
      · exact fun h => leafIdxs_ne_nil l (List.append_eq_nil.mp h).1

/-- The multiset of leaf indices of the three root subtrees of the NJ tree
is exactly `0..n-1`. -/
theorem nj_leafIdxs_perm (m : matrix) (h : 4 ≤ m.get_size) :
    ((nj m).l.leafIdxs ++ ((nj m).r.leafIdxs ++ (nj m).e.leafIdxs)).Perm
      (List.range m.get_size) := by
  have hlen0 : ((List.range m.get_size).map NTree.leaf).length = m.get_size := by
    simp
  have inv := njLoop_inv (m.get_size - 3) m.get_size
    ((List.range m.get_size).map NTree.leaf) m.values hlen0 (by omega)
  have hL : (njLoop (m.get_size - 3) m.get_size
      ((List.range m.get_size).map NTree.leaf) m.values).1.length = 3 := by
    rw [inv.1]; omega
  obtain ⟨a, b, c, habc⟩ := List.length_eq_three.mp hL
  have hla : (nj m).l = a := by
    show (njLoop (m.get_size - 3) m.get_size
      ((List.range m.get_size).map NTree.leaf) m.values).1.getD 0 default = a
    rw [habc]; rfl
  have hlb : (nj m).r = b := by
    show (njLoop (m.get_size - 3) m.get_size
      ((List.range m.get_size).map NTree.leaf) m.values).1.getD 1 default = b
    rw [habc]; rfl
  have hlc : (nj m).e = c := by
    show (njLoop (m.get_size - 3) m.get_size
      ((List.range m.get_size).map NTree.leaf) m.values).1.getD 2 default = c
    rw [habc]; rfl
  have hinit : ((((List.range m.get_size).map NTree.leaf).map
      NTree.leafIdxs).flatten) = List.range m.get_size := by
    rw [List.map_map]
    exact map_singleton_flatten _
  rw [hla, hlb, hlc]
  have hp := inv.2.1
  rw [habc, hinit] at hp
  simpa [List.append_assoc] using hp

/-- Claim C5: `quartet_all` only invokes the support function behind the
`is_node` guards, and on a tree built by `nj` from a matrix with at least
four names every buffer it passes in has all four color classes inhabited:
the quartet count divided by is nonzero, so the support computation never
divides by zero, while edges to leaf children are skipped and keep their
initial zero support. -/
theorem nj_support_counter_pos (m : matrix) (h : 4 ≤ m.get_size) :
    ∀ buf ∈ njInvocations m.get_size (nj m), 0 < quartet_counter m buf := by
  have hperm := nj_leafIdxs_perm m h
  intro buf hbuf
  have hgoal : quartetList m.get_size buf ≠ [] := by
    simp only [njInvocations, List.mem_append] at hbuf
    rcases hbuf with ((((h1 | h2) | h3) | h4) | h5) | h6
    · refine nodeInvocations_quartets m.get_size (nj m).l
        ((nj m).r.leafIdxs ++ (nj m).e.leafIdxs) hperm ?_ buf h1
      exact fun hx => leafIdxs_ne_nil (nj m).r (List.append_eq_nil.mp hx).1
    · refine nodeInvocations_quartets m.get_size (nj m).r
        ((nj m).e.leafIdxs ++ (nj m).l.leafIdxs) ?_ ?_ buf h2
      · have hc : (((nj m).r.leafIdxs ++ (nj m).e.leafIdxs) ++
            (nj m).l.leafIdxs).Perm
            ((nj m).l.leafIdxs ++ ((nj m).r.leafIdxs ++ (nj m).e.leafIdxs)) :=
          List.perm_append_comm
        refine List.Perm.trans ?_ hperm
        simpa [List.append_assoc] using hc
      · exact fun hx => leafIdxs_ne_nil (nj m).e (List.append_eq_nil.mp hx).1
    · refine nodeInvocations_quartets m.get_size (nj m).e
        ((nj m).l.leafIdxs ++ (nj m).r.leafIdxs) ?_ ?_ buf h3
      · have hc : ((nj m).e.leafIdxs ++
            ((nj m).l.leafIdxs ++ (nj m).r.leafIdxs)).Perm
            (((nj m).l.leafIdxs ++ (nj m).r.leafIdxs) ++ (nj m).e.leafIdxs) :=
          List.perm_append_comm
        refine List.Perm.trans ?_ hperm
        simpa [List.append_assoc] using hc
      · exact fun hx => leafIdxs_ne_nil (nj m).l (List.append_eq_nil.mp hx).1
    · by_cases hl : (nj m).l.isNode
      · rw [if_pos hl, List.mem_singleton] at h4
        subst h4
        rcases hln : (nj m).l with i | ⟨ll, lr, lld, lrd, lls, lrs⟩
        · rw [hln] at hl; simp [NTree.isNode] at hl
        · refine quartetList_ne_nil m.get_size ll lr (nj m).r
            (nj m).e.leafIdxs ?_ (leafIdxs_ne_nil (nj m).e)
          rw [hln] at hperm
          simpa [NTree.leafIdxs, List.append_assoc] using hperm
      · rw [if_neg hl] at h4
        simp at h4
    · by_cases hr : (nj m).r.isNode
      · rw [if_pos hr, List.mem_singleton] at h5
        subst h5
        rcases hrn : (nj m).r with i | ⟨rl, rr, rld, rrd, rls, rrs⟩
        · rw [hrn] at hr; simp [NTree.isNode] at hr
        · refine quartetList_ne_nil m.get_size rl rr (nj m).l
            (nj m).e.leafIdxs ?_ (leafIdxs_ne_nil (nj m).e)
          refine (append_perm_rotate (nj m).l.leafIdxs rl.leafIdxs rr.leafIdxs
            (nj m).e.leafIdxs).trans ?_
          rw [hrn] at hperm
          simpa [NTree.leafIdxs, List.append_assoc] using hperm
      · rw [if_neg hr] at h5
        simp at h5
    · by_cases he : (nj m).e.isNode
      · rw [if_pos he, List.mem_singleton] at h6
        subst h6
        rcases hen : (nj m).e with i | ⟨el, er, eld, erd, els, ers⟩
        · rw [hen] at he; simp [NTree.isNode] at he
        · refine quartetList_ne_nil m.get_size el er (nj m).l
            (nj m).r.leafIdxs ?_ (leafIdxs_ne_nil (nj m).r)
          have hc : (((el.leafIdxs ++ er.leafIdxs) ++ (nj m).l.leafIdxs) ++
              (nj m).r.leafIdxs).Perm
              (((nj m).l.leafIdxs ++ (nj m).r.leafIdxs) ++
                (el.leafIdxs ++ er.leafIdxs)) := by
            have hc0 : ((el.leafIdxs ++ er.leafIdxs) ++
                ((nj m).l.leafIdxs ++ (nj m).r.leafIdxs)).Perm
                (((nj m).l.leafIdxs ++ (nj m).r.leafIdxs) ++
                  (el.leafIdxs ++ er.leafIdxs)) := List.perm_append_comm
            simpa [List.append_assoc] using hc0
          refine List.Perm.trans ?_ hperm
          rw [hen]
          simpa [NTree.leafIdxs, List.append_assoc] using hc
      · rw [if_neg he] at h6
        simp at h6
  rw [quartet_counter]
  exact List.length_pos.mpr hgoal

/-- Witness: on the worked 4-species matrix, the NJ tree triggers exactly
one support invocation, on the buffer `[1,2,0,3]`, and its quartet count is
positive. -/
theorem nj_support_counter_pos_witness :
    4 ≤ scenario.get_size ∧
      (∀ buf ∈ njInvocations scenario.get_size (nj scenario),
        0 < quartet_counter scenario buf) ∧
      [1, 2, 0, 3] ∈ njInvocations scenario.get_size (nj scenario) := by
  refine ⟨by decide, nj_support_counter_pos scenario (by decide), ?_⟩
  rw [scen_nj]
  decide
